import Mathlib

/-!
Verification of the micrograd scalar autodiff engine against its design
specification.  The development shallowly embeds the two engine variants of
the repository: the eager dynamic-graph variant (`micrograd/engine.py`) and
the build-once / mutate-per-example hot-loop variant (`mnist.py`).

Graphs are embedded as arenas: a list of nodes, each node holding its
operation tag and the indices of its operands (operand indices are strictly
smaller than the node's own index, mirroring the fact that in both Python
variants a node's children are created before the node itself).  The mutable
`data` and `grad` fields become explicit state, functions from node index to
scalar.  The scalar type is kept abstract (`LinearOrderedField`): the
transcendental primitives `math.exp`, `math.log` and `math.pow`, which are
calls into an external library, are modelled as an explicit bundle of
functions `Prims`; every structural claim about the engine holds for any
such bundle.  The softmax / cross-entropy claims, which are about real
arithmetic, are stated over `ℝ` with `Real.exp`, `Real.log`, `Real.rpow`.
-/

/-- The external scalar primitives used by the engine: models of `math.exp`,
`math.log` and `math.pow` of the host platform. -/
structure Prims (α : Type) where
  fexp : α → α
  flog : α → α
  fpow : α → α → α

/-- Node kinds of the computation graph, one per operation of the catalogue.
`value` is a mutable leaf (`Value` in `mnist.py`, a leaf `Value` in
`engine.py`); `constE` is `Const` of `mnist.py`, whose datum is immutable and
stored in the node itself; the remaining kinds carry the indices of their
operands, and `powE` additionally its fixed exponent. -/
inductive NodeK (α : Type) where
  | value : NodeK α
  | constE : α → NodeK α
  | addE : Nat → Nat → NodeK α
  | mulE : Nat → Nat → NodeK α
  | powE : Nat → α → NodeK α
  | reluE : Nat → NodeK α
  | logE : Nat → NodeK α
  | expE : Nat → NodeK α
  | maxE : Nat → Nat → NodeK α
  deriving DecidableEq

/-- The ordered operand list of a node (`_prev` in `engine.py`,
`_prev0`/`_prev1` in `mnist.py`). -/
def NodeK.ops {α : Type} : NodeK α → List Nat
  | .value => []
  | .constE _ => []
  | .addE i j => [i, j]
  | .mulE i j => [i, j]
  | .powE i _ => [i]
  | .reluE i => [i]
  | .logE i => [i]
  | .expE i => [i]
  | .maxE i j => [i, j]

/-- Whether a node is the `Const` kind of `mnist.py`. -/
def NodeK.isConst {α : Type} : NodeK α → Bool
  | .constE _ => true
  | _ => false

/-- An arena: the nodes of a computation graph, listed in creation order. -/
def Arena (α : Type) := List (NodeK α)

/-- The node stored at index `i` (out-of-range indices read as an operand-free
leaf, which keeps every lemma hypothesis about them vacuous). -/
def nodeAt {α : Type} (a : Arena α) (i : Nat) : NodeK α :=
  a.getD i .value

/-- Well-formedness: each node's operands were created strictly before it.
Both Python variants guarantee this, since `_children`/`_prev0`/`_prev1` are
existing objects at construction time and the graph is never mutated. -/
def WF {α : Type} (a : Arena α) : Prop :=
  ∀ i, i < a.length → ∀ j ∈ (nodeAt a i).ops, j < i

instance {α : Type} (a : Arena α) : Decidable (WF a) := by
  unfold WF; infer_instance

/-- Out-of-range nodes have no operands, so `WF` gives the operand bound at
every index, not only in-range ones. -/
theorem WF.ops_lt {α : Type} {a : Arena α} (h : WF a) :
    ∀ i, ∀ j ∈ (nodeAt a i).ops, j < i := by
  intro i j hj
  by_cases hi : i < a.length
  · exact h i hi j hj
  · exfalso
    have : nodeAt a i = .value := by
      unfold nodeAt
      exact List.getD_eq_default _ _ (Nat.le_of_not_lt hi)
    rw [this] at hj
    simp [NodeK.ops] at hj

/-- The datum a consumer reads from node `i` (`get_data` in `mnist.py`): a
`Const` answers its stored constant, every other node answers its mutable
`data` field. -/
def getData {α : Type} (a : Arena α) (d : Nat → α) (i : Nat) : α :=
  match nodeAt a i with
  | .constE c => c
  | _ => d i

/-- Depth-first topological-sort worker, the common shape of
`build_topo` in `engine.py` and `BaseValue._build_topo` in `mnist.py`.
State is the pair (visited list, topo list); a node is marked visited
before its operands are walked and appended to the topo list afterwards.
The parameter `sk` is the per-node skip test: the eager variant skips
nothing, while in `mnist.py` `Const._build_topo` is overridden to do
nothing at all, so constants are skipped.  Fuel bounds the recursion; by
well-formedness any fuel exceeding the start index suffices. -/
def dfsA {α : Type} (a : Arena α) (sk : NodeK α → Bool) :
    Nat → Nat → List Nat × List Nat → List Nat × List Nat
  | 0, _, st => st
  | f + 1, i, st =>
    if sk (nodeAt a i) then st
    else if i ∈ st.1 then st
    else
      let st1 := (i :: st.1, st.2)
      let st2 := (nodeAt a i).ops.foldl (fun s j => dfsA a sk f j s) st1
      (st2.1, st2.2 ++ [i])

/-- The cached topological order rooted at `r` (`build_topo(self)` in
`engine.py`, `loss.topo()` in `mnist.py`). -/
def topoOf {α : Type} (a : Arena α) (sk : NodeK α → Bool) (r : Nat) : List Nat :=
  (dfsA a sk (r + 1) r ([], [])).2

/-- The skip test of the eager variant (`engine.py`): no node is skipped. -/
def noSkip {α : Type} : NodeK α → Bool := fun _ => false

/-- The skip test of the hot-loop variant (`mnist.py`): `Const._build_topo`
is a no-op, so constant nodes are skipped. -/
def constSkip {α : Type} : NodeK α → Bool := NodeK.isConst

/-- Reachability in the operand graph: the nodes `backward` can influence
from the root. -/
inductive Reach {α : Type} (a : Arena α) (r : Nat) : Nat → Prop where
  | refl : Reach a r r
  | step {i j : Nat} : Reach a r i → j ∈ (nodeAt a i).ops → Reach a r j

/-- One forward step (`_forward` of each node class in `mnist.py`): node `t`
recomputes its `data` field from its operands' data; leaves and constants do
nothing. -/
def stepF {α : Type} [LinearOrderedField α] (a : Arena α) (P : Prims α)
    (d : Nat → α) (t : Nat) : Nat → α :=
  match nodeAt a t with
  | .value => d
  | .constE _ => d
  | .addE i j => Function.update d t (getData a d i + getData a d j)
  | .mulE i j => Function.update d t (getData a d i * getData a d j)
  | .powE i k => Function.update d t (P.fpow (getData a d i) k)
  | .reluE i =>
      Function.update d t ((if getData a d i > 0 then (1 : α) else 0) * getData a d i)
  | .logE i => Function.update d t (P.flog (getData a d i))
  | .expE i => Function.update d t (P.fexp (getData a d i))
  | .maxE i j =>
      let lb : α := if getData a d i > getData a d j then 1 else 0
      Function.update d t (lb * getData a d i + (1 - lb) * getData a d j)

/-- Forward sweep over a (cached) topological order, front to back
(`for node in topo: node._forward()`). -/
def sweepF {α : Type} [LinearOrderedField α] (a : Arena α) (P : Prims α)
    (order : List Nat) (d : Nat → α) : Nat → α :=
  order.foldl (stepF a P) d

/-- One backward step (`_backward` of each node class): node `t` accumulates
its adjoint contributions into each operand's `grad` with `+=`, exactly in
the source's write order; leaves and constants do nothing.  As in the
source, the `relu` rule reads the node's own stored data while `pow`, `log`
and `exp` read the operand's data. -/
def stepB {α : Type} [LinearOrderedField α] (a : Arena α) (P : Prims α)
    (d : Nat → α) (g : Nat → α) (t : Nat) : Nat → α :=
  match nodeAt a t with
  | .value => g
  | .constE _ => g
  | .addE i j =>
      let g1 := Function.update g i (g i + g t)
      Function.update g1 j (g1 j + g1 t)
  | .mulE i j =>
      let g1 := Function.update g i (g i + getData a d j * g t)
      Function.update g1 j (g1 j + getData a d i * g1 t)
  | .powE i k =>
      Function.update g i (g i + k * P.fpow (getData a d i) (k - 1) * g t)
  | .reluE i =>
      Function.update g i (g i + (if getData a d t > 0 then (1 : α) else 0) * g t)
  | .logE i => Function.update g i (g i + 1 / getData a d i * g t)
  | .expE i => Function.update g i (g i + P.fexp (getData a d i) * g t)
  | .maxE i j =>
      let lb : α := if getData a d i > getData a d j then 1 else 0
      let g1 := Function.update g i (g i + lb * g t)
      Function.update g1 j (g1 j + (1 - lb) * g1 t)

/-- Backward sweep over a list of node indices (`for v in reversed(topo):
v._backward()` is `sweepB` of the reversed cached order). -/
def sweepB {α : Type} [LinearOrderedField α] (a : Arena α) (P : Prims α)
    (d : Nat → α) (order : List Nat) (g : Nat → α) : Nat → α :=
  order.foldl (stepB a P d) g

/-- `Value.backward` of `engine.py`: build the topological order from the
root, set the root's grad to 1, then run the chain rule back to front.  No
other node's grad is touched before the sweep. -/
def valueBackward {α : Type} [LinearOrderedField α] (a : Arena α) (P : Prims α)
    (d : Nat → α) (r : Nat) (g : Nat → α) : Nat → α :=
  sweepB a P d (topoOf a noSkip r).reverse (Function.update g r 1)

/-- `BaseValue.backward` of `mnist.py`: same driver over the const-skipping
topological order. -/
def baseBackward {α : Type} [LinearOrderedField α] (a : Arena α) (P : Prims α)
    (d : Nat → α) (r : Nat) (g : Nat → α) : Nat → α :=
  sweepB a P d (topoOf a constSkip r).reverse (Function.update g r 1)

/-- The grad-state after the reset phase of the hot-loop `backward` closure
in `make_main`: `for node in non_params: node.grad = 0.` -/
def zeroNonParams {α : Type} [LinearOrderedField α] (nps : List Nat)
    (g : Nat → α) : Nat → α :=
  fun n => if n ∈ nps then 0 else g n

/-- `non_params` of `make_main`: the cached topological order with the
parameter leaves filtered out. -/
def nonParamsOf {α : Type} (a : Arena α) (r : Nat) (params : List Nat) : List Nat :=
  (topoOf a constSkip r).filter (fun n => ¬ n ∈ params)

/-- The per-example `backward` closure of `make_main` in `mnist.py`: reset
the grads of the non-parameter nodes only, set the loss grad to 1, then run
the cached reverse topological order. -/
def hotBackward {α : Type} [LinearOrderedField α] (a : Arena α) (P : Prims α)
    (d : Nat → α) (nps : List Nat) (r : Nat) (g : Nat → α) : Nat → α :=
  sweepB a P d (topoOf a constSkip r).reverse
    (Function.update (zeroNonParams nps g) r 1)

/-- `zero_grad` of `make_main`: every node of the cached order gets grad 0. -/
def zeroGradHot {α : Type} [LinearOrderedField α] (a : Arena α) (r : Nat)
    (g : Nat → α) : Nat → α :=
  fun n => if n ∈ topoOf a constSkip r then 0 else g n

/-- `update_params` of `make_main`: SGD with fixed learning rate 0.1,
`p.data -= 0.1 * p.grad` for every parameter. -/
def updateParams {α : Type} [LinearOrderedField α] (params : List Nat)
    (d g : Nat → α) : Nat → α :=
  fun n => if n ∈ params then d n - 1 / 10 * g n else d n

/-- `grouper` of `mnist.py`, inner loop: walk the input, flushing the
current chunk whenever it reaches length `n`.  Returns (flushed groups,
pending chunk). -/
def grouperLoop {β : Type} (n : Nat) :
    List β → List (List β) → List β → List (List β) × List β
  | [], acc, curr => (acc, curr)
  | x :: xs, acc, curr =>
    let curr' := curr ++ [x]
    if curr'.length = n then grouperLoop n xs (acc ++ [curr']) []
    else grouperLoop n xs acc curr'

/-- `grouper(n, iterable, fillvalue)` of `mnist.py`: fixed-size groups; if
the pending chunk is shorter than `n` (including the empty chunk) it is
padded with the fill value and appended. -/
def grouper {β : Type} (n : Nat) (l : List β) (fill : β) : List (List β) :=
  let st := grouperLoop n l [] []
  if st.2.length < n then st.1 ++ [st.2 ++ List.replicate (n - st.2.length) fill]
  else st.1

/-- One `random.random()` call against the draw stream: yields the next draw
and advances the stream position.  The stream `rng` abstracts the
`rrandom.Random()` instance of `mnist.py` (an explicitly instantiated,
default-seeded Mersenne Twister from an external library), recording only
that successive calls read successive draws. -/
def drawOne {α : Type} (rng : Nat → α) (k : Nat) : α × Nat :=
  (rng k, k + 1)

/-- The data fields of a freshly constructed `Neuron` of `mnist.py`:
`nin` weight leaves, each written by one `random.random()` draw in loop
order, and the bias leaf `Value()`, whose data field is its initial `0.0`.
Returns ((weight data list, bias datum), next stream position). -/
def neuronInit {α : Type} [LinearOrderedField α] (rng : Nat → α) (k0 : Nat)
    (nin : Nat) : (List α × α) × Nat :=
  let ws := (List.range nin).foldl
    (fun (s : List α × Nat) _ =>
      let (x, k') := drawOne rng s.2
      (s.1 ++ [x], k')) ([], k0)
  ((ws.1, 0), ws.2)

/-- A training example as the leaf assignment the `forward` closure writes
before the sweep: `some x` for the input and one-hot leaves it overwrites,
`none` for every node it leaves alone. -/
def writeEx {α : Type} (e : Nat → Option α) (d : Nat → α) : Nat → α :=
  fun n => match e n with
  | some x => x
  | none => d n

/-- The `forward` closure of `make_main` after the leaf writes: run the
cached topological order front to back and read the loss datum. -/
def forwardHot {α : Type} [LinearOrderedField α] (a : Arena α) (P : Prims α)
    (r : Nat) (d : Nat → α) : Nat → α :=
  sweepF a P (topoOf a constSkip r) d

/-- One iteration of the per-batch example loop of `main`: a sentinel
(`None`) is skipped outright; a real example writes its leaves, runs the
forward sweep, adds the loss datum to the batch loss, and runs the hot
backward closure.  State is (data, grad, accumulated batch loss). -/
def batchStep {α : Type} [LinearOrderedField α] (a : Arena α) (P : Prims α)
    (nps : List Nat) (r : Nat) (s : (Nat → α) × (Nat → α) × α)
    (oe : Option (Nat → Option α)) : (Nat → α) × (Nat → α) × α :=
  match oe with
  | none => s
  | some e =>
    let d' := forwardHot a P r (writeEx e s.1)
    (d', hotBackward a P d' nps r s.2.1, s.2.2 + d' r)

/-- The per-batch example loop of `main` over a padded group. -/
def runBatch {α : Type} [LinearOrderedField α] (a : Arena α) (P : Prims α)
    (nps : List Nat) (r : Nat) (exs : List (Option (Nat → Option α)))
    (s : (Nat → α) × (Nat → α) × α) : (Nat → α) × (Nat → α) × α :=
  exs.foldl (batchStep a P nps r) s

/-- The post-forward data states of the non-sentinel examples of a batch, in
processing order. -/
def dataStates {α : Type} [LinearOrderedField α] (a : Arena α) (P : Prims α)
    (r : Nat) : List (Option (Nat → Option α)) → (Nat → α) → List (Nat → α)
  | [], _ => []
  | none :: t, d => dataStates a P r t d
  | some e :: t, d =>
    let d' := forwardHot a P r (writeEx e d)
    d' :: dataStates a P r t d'

/-- The chunks flushed inside `grouper`'s loop all have exactly `n`
elements, the pending chunk stays shorter than `n`, and its length tracks
the number of consumed elements modulo `n`. -/
theorem grouperLoop_invariant {β : Type} (n : Nat) :
    ∀ (xs : List β) (acc : List (List β)) (curr : List β), curr.length < n →
      (∀ gp ∈ acc, gp.length = n) →
      (∀ gp ∈ (grouperLoop n xs acc curr).1, gp.length = n) ∧
      (grouperLoop n xs acc curr).2.length < n ∧
      (grouperLoop n xs acc curr).2.length % n = (curr.length + xs.length) % n := by
  intro xs
  induction xs with
  | nil =>
    intro acc curr hc hacc
    simp only [grouperLoop]
    exact ⟨hacc, hc, by simp⟩
  | cons x xs ih =>
    intro acc curr hc hacc
    simp only [grouperLoop]
    by_cases hflush : (curr ++ [x]).length = n
    · simp only [hflush, if_true]
      have hacc' : ∀ gp ∈ acc ++ [curr ++ [x]], gp.length = n := by
        intro gp hgp
        rcases List.mem_append.mp hgp with h | h
        · exact hacc gp h
        · simp only [List.mem_singleton] at h
          rw [h]; exact hflush
      have h0 : ([] : List β).length < n := by
        simp only [List.length_append, List.length_singleton] at hflush
        simp only [List.length_nil]
        omega
      obtain ⟨h1, h2, h3⟩ := ih (acc ++ [curr ++ [x]]) [] h0 hacc'
      refine ⟨h1, h2, ?_⟩
      rw [h3]
      have : curr.length + (x :: xs).length = n + xs.length := by
        simp only [List.length_cons]
        simp only [List.length_append, List.length_singleton] at hflush
        omega
      rw [this]
      simp [Nat.add_mod, Nat.mod_self]
    · simp only [hflush, if_false]
      have hc' : (curr ++ [x]).length < n := by
        simp only [List.length_append, List.length_singleton] at hflush ⊢
        omega
      obtain ⟨h1, h2, h3⟩ := ih acc (curr ++ [x]) hc' hacc
      refine ⟨h1, h2, ?_⟩
      have harg : (curr ++ [x]).length + xs.length = curr.length + (x :: xs).length := by
        simp only [List.length_append, List.length_singleton, List.length_cons,
          List.length_nil]
        omega
      rw [h3, harg]

/-- With group size 0 the loop never flushes a chunk. -/
theorem grouperLoop_zero {β : Type} :
    ∀ (xs : List β) (acc : List (List β)) (curr : List β),
      (grouperLoop 0 xs acc curr).1 = acc := by
  intro xs
  induction xs with
  | nil => intro acc curr; simp [grouperLoop]
  | cons x xs ih =>
    intro acc curr
    simp only [grouperLoop]
    have : (curr ++ [x]).length ≠ 0 := by simp
    simp only [this, if_false]
    exact ih acc (curr ++ [x])

/-- Every group `grouper` returns has exactly `n` elements. -/
theorem grouper_length {β : Type} (n : Nat) (l : List β) (fill : β) :
    ∀ gp ∈ grouper n l fill, gp.length = n := by
  intro gp hgp
  rcases Nat.eq_zero_or_pos n with hn | hn
  · subst hn
    simp only [grouper, grouperLoop_zero l [] []] at hgp
    simp at hgp
  · have h0 : ([] : List β).length < n := by simpa using hn
    obtain ⟨h1, h2, _⟩ := grouperLoop_invariant n l [] [] h0 (by simp)
    simp only [grouper, h2, if_true] at hgp
    rcases List.mem_append.mp hgp with h | h
    · exact h1 gp h
    · simp only [List.mem_singleton] at h
      subst h
      simp only [List.length_append, List.length_replicate]
      omega

/-- Skipping a sentinel is the identity on the batch state. -/
theorem batchStep_none {α : Type} [LinearOrderedField α] (a : Arena α)
    (P : Prims α) (nps : List Nat) (r : Nat) (s : (Nat → α) × (Nat → α) × α) :
    batchStep a P nps r s none = s := rfl

/-- A sentinel spliced anywhere into a batch leaves the run unchanged: no
forward pass, no backward pass, no loss contribution. -/
theorem runBatch_sentinel {α : Type} [LinearOrderedField α] (a : Arena α)
    (P : Prims α) (nps : List Nat) (r : Nat)
    (exs1 exs2 : List (Option (Nat → Option α)))
    (s : (Nat → α) × (Nat → α) × α) :
    runBatch a P nps r (exs1 ++ none :: exs2) s
      = runBatch a P nps r (exs1 ++ exs2) s := by
  unfold runBatch
  rw [List.foldl_append, List.foldl_append, List.foldl_cons, batchStep_none]

/-- C8: grouping the seven records 1..7 into groups of three with the `None`
sentinel yields exactly `[[1,2,3],[4,5,6],[7,None,None]]`; every group
`grouper` returns has exactly `n` elements; and the training batch loop
performs no forward/backward pass and adds no loss for a sentinel entry — a
batch with a sentinel spliced in runs exactly like the batch without it. -/
theorem grouper_pads_and_skips_sentinels :
    grouper 3 [some 1, some 2, some 3, some 4, some 5, some 6, some 7]
        (none : Option Nat)
      = [[some 1, some 2, some 3], [some 4, some 5, some 6],
         [some 7, none, none]] ∧
    (∀ (β : Type) (n : Nat) (l : List β) (fill : β) (gp : List β),
      gp ∈ grouper n l fill → gp.length = n) ∧
    (∀ (α : Type) [LinearOrderedField α] (a : Arena α) (P : Prims α)
      (nps : List Nat) (r : Nat) (exs1 exs2 : List (Option (Nat → Option α)))
      (s : (Nat → α) × (Nat → α) × α),
      runBatch a P nps r (exs1 ++ none :: exs2) s
        = runBatch a P nps r (exs1 ++ exs2) s) := by
  refine ⟨by decide, ?_, ?_⟩
  · intro β n l fill gp h
    exact grouper_length n l fill gp h
  · intro α _ a P nps r exs1 exs2 s
    exact runBatch_sentinel a P nps r exs1 exs2 s

/-- The general group-length fact of the C8 theorem, instantiated at its own
concrete padded group. -/
theorem grouper_pads_and_skips_sentinels_witness :
    ([some 7, none, none] : List (Option Nat)).length = 3 :=
  grouper_pads_and_skips_sentinels.2.1 (Option Nat) 3
    [some 1, some 2, some 3, some 4, some 5, some 6, some 7] none
    [some 7, none, none] (by decide)

/-- C9: on an input whose length is an exact positive multiple of the group
size (and on the empty input), the pending chunk is empty when the walk
ends, yet the `len(currlist) < n` test still fires, so `grouper` appends one
additional trailing group made entirely of fill values; for every positive
group size the result therefore always ends in a group containing at least
one fill entry. -/
theorem grouper_trailing_fill_group :
    grouper 3 [some 1, some 2, some 3, some 4, some 5, some 6]
        (none : Option Nat)
      = [[some 1, some 2, some 3], [some 4, some 5, some 6],
         [none, none, none]] ∧
    (∀ (β : Type) (n : Nat) (l : List β) (fill : β), 0 < n → n ∣ l.length →
      (grouper n l fill).getLast? = some (List.replicate n fill)) ∧
    (∀ (β : Type) (n : Nat) (l : List β) (fill : β), 0 < n →
      ∃ gp, (grouper n l fill).getLast? = some gp ∧ fill ∈ gp) := by
  refine ⟨by decide, ?_, ?_⟩
  · intro β n l fill hn hdvd
    have h0 : ([] : List β).length < n := by simpa using hn
    obtain ⟨_, h2, h3⟩ := grouperLoop_invariant n l [] [] h0 (by simp)
    have hmod : (grouperLoop n l [] []).2.length % n = 0 := by
      rw [h3]
      simpa using (Nat.mod_eq_zero_of_dvd hdvd)
    have hlen : (grouperLoop n l [] []).2.length = 0 := by
      rwa [Nat.mod_eq_of_lt h2] at hmod
    have hcurr : (grouperLoop n l [] []).2 = [] := List.length_eq_zero.mp hlen
    simp only [grouper, hcurr, List.length_nil, Nat.sub_zero, List.nil_append]
    rw [if_pos hn]
    exact List.getLast?_concat _
  · intro β n l fill hn
    have h0 : ([] : List β).length < n := by simpa using hn
    obtain ⟨_, h2, _⟩ := grouperLoop_invariant n l [] [] h0 (by simp)
    refine ⟨(grouperLoop n l [] []).2
      ++ List.replicate (n - (grouperLoop n l [] []).2.length) fill, ?_, ?_⟩
    · simp only [grouper, h2, if_true]
      exact List.getLast?_concat _
    · refine List.mem_append_right _ ?_
      rw [List.mem_replicate]
      exact ⟨by omega, rfl⟩

/-- The trailing-fill facts of the C9 theorem at a concrete exact-multiple
input. -/
theorem grouper_trailing_fill_group_witness :
    (grouper 2 [some 5, some 6] (none : Option Nat)).getLast?
      = some (List.replicate 2 none) :=
  grouper_trailing_fill_group.2.1 (Option Nat) 2 [some 5, some 6] none
    (by decide) (by decide)

/-- The total adjoint contribution a backward step of node `t` adds to the
grad of node `m`, given that `t`'s own grad (`out.grad`) reads `gout`: the
product of the local derivative and `gout`, summed over the operand
positions of `t` naming `m`. -/
def incr {α : Type} [LinearOrderedField α] (a : Arena α) (P : Prims α)
    (d : Nat → α) (gout : α) (t : Nat) (m : Nat) : α :=
  match nodeAt a t with
  | .value => 0
  | .constE _ => 0
  | .addE i j => (if m = i then gout else 0) + (if m = j then gout else 0)
  | .mulE i j =>
      (if m = i then getData a d j * gout else 0)
        + (if m = j then getData a d i * gout else 0)
  | .powE i k => if m = i then k * P.fpow (getData a d i) (k - 1) * gout else 0
  | .reluE i =>
      if m = i then (if getData a d t > 0 then (1 : α) else 0) * gout else 0
  | .logE i => if m = i then 1 / getData a d i * gout else 0
  | .expE i => if m = i then P.fexp (getData a d i) * gout else 0
  | .maxE i j =>
      let lb : α := if getData a d i > getData a d j then 1 else 0
      (if m = i then lb * gout else 0) + (if m = j then (1 - lb) * gout else 0)

/-- Accumulation, never overwriting: as long as a node's operands precede
it, its backward step leaves every grad equal to its previous value plus the
step's own contribution. -/
theorem stepB_eq_incr {α : Type} [LinearOrderedField α] (a : Arena α)
    (P : Prims α) (d : Nat → α) (g : Nat → α) (t : Nat)
    (h : ∀ j ∈ (nodeAt a t).ops, j < t) (m : Nat) :
    stepB a P d g t m = g m + incr a P d (g t) t m := by
  unfold stepB incr
  cases hk : nodeAt a t with
  | value => simp
  | constE c => simp
  | addE i j =>
    have hi : i < t := by
      apply h; rw [hk]; simp [NodeK.ops]
    have hj : j < t := by
      apply h; rw [hk]; simp [NodeK.ops]
    simp only [Function.update_apply]
    split_ifs <;> simp_all <;> ring
  | mulE i j =>
    have hi : i < t := by
      apply h; rw [hk]; simp [NodeK.ops]
    have hj : j < t := by
      apply h; rw [hk]; simp [NodeK.ops]
    simp only [Function.update_apply]
    split_ifs <;> simp_all <;> ring
  | powE i k =>
    simp only [Function.update_apply]
    split_ifs <;> simp_all
  | reluE i =>
    simp only [Function.update_apply]
    split_ifs <;> simp_all
  | logE i =>
    simp only [Function.update_apply]
    split_ifs <;> simp_all
  | expE i =>
    simp only [Function.update_apply]
    split_ifs <;> simp_all
  | maxE i j =>
    have hi : i < t := by
      apply h; rw [hk]; simp [NodeK.ops]
    have hj : j < t := by
      apply h; rw [hk]; simp [NodeK.ops]
    simp only [Function.update_apply]
    split_ifs <;> simp_all <;> ring

/-- A backward step contributes nothing to nodes that are not among its
operands. -/
theorem incr_not_op {α : Type} [LinearOrderedField α] (a : Arena α)
    (P : Prims α) (d : Nat → α) (gout : α) (t m : Nat)
    (hm : m ∉ (nodeAt a t).ops) : incr a P d gout t m = 0 := by
  unfold incr
  cases hk : nodeAt a t <;> rw [hk] at hm <;> simp [NodeK.ops] at hm <;>
    simp_all

/-- A backward step leaves the grad of every non-operand unchanged. -/
theorem stepB_not_op {α : Type} [LinearOrderedField α] (a : Arena α)
    (P : Prims α) (d : Nat → α) (g : Nat → α) (t : Nat)
    (h : ∀ j ∈ (nodeAt a t).ops, j < t) (m : Nat)
    (hm : m ∉ (nodeAt a t).ops) : stepB a P d g t m = g m := by
  rw [stepB_eq_incr a P d g t h m, incr_not_op a P d (g t) t m hm]
  ring

/-- A backward sweep over nodes of which `m` is never an operand leaves
`m`'s grad unchanged. -/
theorem sweepB_not_op {α : Type} [LinearOrderedField α] (a : Arena α)
    (P : Prims α) (d : Nat → α) (hwf : WF a) :
    ∀ (L : List Nat) (g : Nat → α) (m : Nat),
      (∀ t ∈ L, m ∉ (nodeAt a t).ops) → sweepB a P d L g m = g m := by
  intro L
  induction L with
  | nil => intro g m _; rfl
  | cons t L ih =>
    intro g m hL
    show sweepB a P d L (stepB a P d g t) m = g m
    rw [ih (stepB a P d g t) m (fun u hu => hL u (List.mem_cons_of_mem t hu))]
    exact stepB_not_op a P d g t (hwf.ops_lt t) m (hL t (List.mem_cons_self t L))

/-- Backward sweeps compose over list concatenation. -/
theorem sweepB_append {α : Type} [LinearOrderedField α] (a : Arena α)
    (P : Prims α) (d : Nat → α) (L1 L2 : List Nat) (g : Nat → α) :
    sweepB a P d (L1 ++ L2) g = sweepB a P d L2 (sweepB a P d L1 g) :=
  List.foldl_append _ _ _ _

/-- A backward sweep starting at a step is the sweep of the stepped state. -/
theorem sweepB_cons {α : Type} [LinearOrderedField α] (a : Arena α)
    (P : Prims α) (d : Nat → α) (t : Nat) (L : List Nat) (g : Nat → α) :
    sweepB a P d (t :: L) g = sweepB a P d L (stepB a P d g t) := rfl

/-- C1: every backward rule of the catalogue accumulates into each operand's
grad by addition to the existing value (never overwriting): a backward step
sends grad `m` to `g m + incr`, where `incr` is the step's own local
contribution.  Consequently, when a node `x` is an operand of exactly two
distinct consumers `c1` and `c2` of the processed sequence, the sweep leaves
`x`'s grad equal to its initial value plus the sum of the contributions
arriving along both paths — each taken at the consumer's grad at its own
processing time — not just the latest one. -/
theorem backward_accumulates_shared :
    (∀ (α : Type) [LinearOrderedField α] (a : Arena α) (P : Prims α)
       (d g : Nat → α) (t : Nat), (∀ j ∈ (nodeAt a t).ops, j < t) →
       ∀ m, stepB a P d g t m = g m + incr a P d (g t) t m) ∧
    (∀ (α : Type) [LinearOrderedField α] (a : Arena α) (P : Prims α)
       (d g : Nat → α) (x c1 c2 : Nat) (L1 L2 L3 : List Nat), WF a →
       (∀ m ∈ L1 ++ L2 ++ L3, x ∉ (nodeAt a m).ops) →
       sweepB a P d (L1 ++ c1 :: L2 ++ c2 :: L3) g x
         = g x + incr a P d (sweepB a P d L1 g c1) c1 x
             + incr a P d (sweepB a P d (L1 ++ c1 :: L2) g c2) c2 x) := by
  constructor
  · intro α _ a P d g t h m
    exact stepB_eq_incr a P d g t h m
  · intro α _ a P d g x c1 c2 L1 L2 L3 hwf hx
    have hx1 : ∀ m ∈ L1, x ∉ (nodeAt a m).ops := by
      intro m hm
      exact hx m (by simp [hm])
    have hx2 : ∀ m ∈ L2, x ∉ (nodeAt a m).ops := by
      intro m hm
      exact hx m (by simp [hm])
    have hx3 : ∀ m ∈ L3, x ∉ (nodeAt a m).ops := by
      intro m hm
      exact hx m (by simp [hm])
    have e1 : ∀ h : Nat → α, sweepB a P d L1 h x = h x :=
      fun h => sweepB_not_op a P d hwf L1 h x hx1
    have e2 : ∀ h : Nat → α, sweepB a P d L2 h x = h x :=
      fun h => sweepB_not_op a P d hwf L2 h x hx2
    have e3 : ∀ h : Nat → α, sweepB a P d L3 h x = h x :=
      fun h => sweepB_not_op a P d hwf L3 h x hx3
    have s1 : ∀ h : Nat → α,
        stepB a P d h c1 x = h x + incr a P d (h c1) c1 x :=
      fun h => stepB_eq_incr a P d h c1 (hwf.ops_lt c1) x
    have s2 : ∀ h : Nat → α,
        stepB a P d h c2 x = h x + incr a P d (h c2) c2 x :=
      fun h => stepB_eq_incr a P d h c2 (hwf.ops_lt c2) x
    simp only [sweepB_append, sweepB_cons]
    rw [e3, s2, e2, s1, e1]

/-- The shared-subexpression accumulation of the C1 theorem on a concrete
diamond: leaf 0 feeds both `relu` node 1 and `exp` node 2, which meet at
`add` node 3; the reverse-topological sweep from unit root grad leaves leaf
0 with the sum of both contributions. -/
theorem backward_accumulates_shared_witness :
    sweepB ([.value, .reluE 0, .expE 0, .addE 1 2] : Arena ℚ)
        ⟨fun x => x, fun x => x, fun x _ => x⟩ (fun _ => 1)
        ([3] ++ 2 :: [] ++ 1 :: [0]) (fun n => if n = 3 then 1 else 0) 0
      = (fun n : Nat => if n = 3 then (1 : ℚ) else 0) 0
        + incr ([.value, .reluE 0, .expE 0, .addE 1 2] : Arena ℚ)
            ⟨fun x => x, fun x => x, fun x _ => x⟩ (fun _ => 1)
            (sweepB ([.value, .reluE 0, .expE 0, .addE 1 2] : Arena ℚ)
              ⟨fun x => x, fun x => x, fun x _ => x⟩ (fun _ => 1) [3]
              (fun n => if n = 3 then 1 else 0) 2) 2 0
        + incr ([.value, .reluE 0, .expE 0, .addE 1 2] : Arena ℚ)
            ⟨fun x => x, fun x => x, fun x _ => x⟩ (fun _ => 1)
            (sweepB ([.value, .reluE 0, .expE 0, .addE 1 2] : Arena ℚ)
              ⟨fun x => x, fun x => x, fun x _ => x⟩ (fun _ => 1) ([3] ++ 2 :: [])
              (fun n => if n = 3 then 1 else 0) 1) 1 0 :=
  backward_accumulates_shared.2 ℚ
    ([.value, .reluE 0, .expE 0, .addE 1 2] : Arena ℚ)
    ⟨fun x => x, fun x => x, fun x _ => x⟩ (fun _ => 1)
    (fun n => if n = 3 then 1 else 0) 0 2 1 [3] [] [0]
    (by decide) (by decide)

/-- The forward rule of `Max._forward` in `mnist.py`, in its branch-free
form: `left_bigger * left + (1 - left_bigger) * right`. -/
def maxForwardHot {α : Type} [LinearOrderedField α] (l r : α) : α :=
  let lb : α := if l > r then 1 else 0
  lb * l + (1 - lb) * r

/-- The forward rule of `Max` in `engine.py`: Python's `max(left.data,
right.data)`, which answers its first argument on ties. -/
def maxForwardEager {α : Type} [LinearOrderedField α] (l r : α) : α :=
  if r > l then r else l

/-- The backward rule of `Max._backward` in `mnist.py`: both operands
receive a branch-free `+=`, with weights `left_bigger` and
`1 - left_bigger`. -/
def maxBackwardHot {α : Type} [LinearOrderedField α] (l r gl gr gout : α) :
    α × α :=
  let lb : α := if l > r then 1 else 0
  (gl + lb * gout, gr + (1 - lb) * gout)

/-- The backward rule of `Max` in `engine.py`: `if left.data > right.data:
left.grad += out.grad else: right.grad += out.grad`. -/
def maxBackwardEager {α : Type} [LinearOrderedField α] (l r gl gr gout : α) :
    α × α :=
  if l > r then (gl + gout, gr) else (gl, gr + gout)

/-- C5: both variants' max forward value is `a if a > b else b`; the two
backward rules agree, and each invocation routes the entire output gradient
to exactly one operand — to the left operand when its data is strictly
greater, otherwise (ties included) entirely to the right operand.  The same
routing holds for the arena backward step at a max node with distinct
operands: the favoured operand's grad grows by the whole output grad and
the other operand's grad is unchanged. -/
theorem max_routes_to_one_operand :
    (∀ (α : Type) [LinearOrderedField α] (l r : α),
      maxForwardHot l r = (if l > r then l else r) ∧
      maxForwardEager l r = (if l > r then l else r)) ∧
    (∀ (α : Type) [LinearOrderedField α] (l r gl gr gout : α),
      maxBackwardHot l r gl gr gout = maxBackwardEager l r gl gr gout) ∧
    (∀ (α : Type) [LinearOrderedField α] (l r gl gr gout : α),
      (l > r → maxBackwardEager l r gl gr gout = (gl + gout, gr)) ∧
      (¬ l > r → maxBackwardEager l r gl gr gout = (gl, gr + gout))) ∧
    (∀ (α : Type) [LinearOrderedField α] (a : Arena α) (P : Prims α)
      (d g : Nat → α) (t i j : Nat), nodeAt a t = .maxE i j →
      (∀ u ∈ (nodeAt a t).ops, u < t) → i ≠ j →
      (stepB a P d g t i
          = g i + (if getData a d i > getData a d j then g t else 0)) ∧
      (stepB a P d g t j
          = g j + (if getData a d i > getData a d j then 0 else g t)) ∧
      (∀ m, m ≠ i → m ≠ j → stepB a P d g t m = g m)) := by
  refine ⟨?_, ?_, ?_, ?_⟩
  · intro α _ l r
    constructor
    · unfold maxForwardHot
      split_ifs <;> ring
    · unfold maxForwardEager
      rcases lt_trichotomy l r with h | h | h
      · have h1 : r > l := h
        have h2 : ¬ l > r := asymm h
        simp [h1, h2]
      · subst h
        simp
      · have h1 : l > r := h
        have h2 : ¬ r > l := asymm h
        simp [h1, h2]
  · intro α _ l r gl gr gout
    unfold maxBackwardHot maxBackwardEager
    split_ifs <;> rw [Prod.mk.injEq] <;> constructor <;> ring
  · intro α _ l r gl gr gout
    constructor
    · intro h
      unfold maxBackwardEager
      rw [if_pos h]
    · intro h
      unfold maxBackwardEager
      rw [if_neg h]
  · intro α _ a P d g t i j hk h hij
    have key := stepB_eq_incr a P d g t h
    refine ⟨?_, ?_, ?_⟩
    · rw [key i]
      simp only [incr, hk]
      simp only [if_pos rfl, if_neg hij]
      split_ifs <;> ring
    · rw [key j]
      simp only [incr, hk]
      simp only [if_neg (Ne.symm hij), if_pos rfl]
      split_ifs <;> ring
    · intro m hmi hmj
      rw [key m, incr_not_op]
      · ring
      · rw [hk]
        simp [NodeK.ops, hmi, hmj]

/-- The C5 routing facts at concrete scalars and at a concrete max node with
a tie, which routes the whole output gradient to the right operand. -/
theorem max_routes_to_one_operand_witness :
    maxBackwardEager (2 : ℚ) 2 5 7 3 = (5, 7 + 3) ∧
    stepB ([.value, .value, .maxE 0 1] : Arena ℚ)
        ⟨fun x => x, fun x => x, fun x _ => x⟩ (fun _ => 1)
        (fun n => if n = 2 then 3 else 0) 2 1
      = (fun n : Nat => if n = 2 then (3 : ℚ) else 0) 1
        + (if getData ([.value, .value, .maxE 0 1] : Arena ℚ) (fun _ => 1) 0
              > getData ([.value, .value, .maxE 0 1] : Arena ℚ) (fun _ => 1) 1
           then 0 else (fun n : Nat => if n = 2 then (3 : ℚ) else 0) 2) :=
  ⟨(max_routes_to_one_operand.2.2.1 ℚ 2 2 5 7 3).2 (by decide),
   (max_routes_to_one_operand.2.2.2 ℚ
      ([.value, .value, .maxE 0 1] : Arena ℚ)
      ⟨fun x => x, fun x => x, fun x _ => x⟩ (fun _ => 1)
      (fun n => if n = 2 then 3 else 0) 2 0 1 (by decide) (by decide)
      (by decide)).2.1⟩

/-- Backward steps of operand-free nodes (leaves and constants) are
no-ops. -/
theorem stepB_leaf {α : Type} [LinearOrderedField α] (a : Arena α)
    (P : Prims α) (d : Nat → α) (g : Nat → α) (t : Nat)
    (h : (nodeAt a t).ops = []) : stepB a P d g t = g := by
  unfold stepB
  cases hk : nodeAt a t <;>
    first
      | rfl
      | (rw [hk] at h; simp [NodeK.ops] at h)

/-- A backward sweep never reads the grad of an operand-free node: two
sweeps whose starting grad states agree on every processed node that has
operands change every node's grad by the same amount. -/
theorem sweepB_delta {α : Type} [LinearOrderedField α] (a : Arena α)
    (P : Prims α) (d : Nat → α) (hwf : WF a) :
    ∀ (L : List Nat) (g1 g2 : Nat → α),
      (∀ t ∈ L, (nodeAt a t).ops ≠ [] → g1 t = g2 t) →
      ∀ m, sweepB a P d L g1 m - g1 m = sweepB a P d L g2 m - g2 m := by
  intro L
  induction L with
  | nil => intro g1 g2 _ m; simp [sweepB]
  | cons t L ih =>
    intro g1 g2 hagree m
    rw [sweepB_cons, sweepB_cons]
    by_cases hleaf : (nodeAt a t).ops = []
    · rw [stepB_leaf a P d g1 t hleaf, stepB_leaf a P d g2 t hleaf]
      exact ih g1 g2
        (fun u hu hops => hagree u (List.mem_cons_of_mem t hu) hops) m
    · have hgt : g1 t = g2 t := hagree t (List.mem_cons_self t L) hleaf
      have hstep : ∀ u,
          stepB a P d g1 t u - g1 u = stepB a P d g2 t u - g2 u := by
        intro u
        rw [stepB_eq_incr a P d g1 t (hwf.ops_lt t) u,
          stepB_eq_incr a P d g2 t (hwf.ops_lt t) u, hgt]
        ring
      have hagree' : ∀ u ∈ L, (nodeAt a u).ops ≠ [] →
          stepB a P d g1 t u = stepB a P d g2 t u := by
        intro u hu hops
        have h1 := hstep u
        have h2 := hagree u (List.mem_cons_of_mem t hu) hops
        linarith
      have hrec := ih (stepB a P d g1 t) (stepB a P d g2 t) hagree' m
      have h1 := hstep m
      linarith

/-- C2 counterexample: `Value.backward` does not reset non-root grads to 0.
On the graph `relu(x)` with all data 1 and a stale grad of 5 on the leaf
`x`, backward from the root leaves `x` with grad 6, whereas the claimed
reset-then-sweep behaviour is insensitive to pre-call grads and yields 1. -/
theorem backward_no_reset_counterexample :
    valueBackward ([.value, .reluE 0] : Arena ℚ)
        ⟨fun x => x, fun x => x, fun x _ => x⟩ (fun _ => 1) 1
        (fun n => if n = 0 then 5 else 0) 0 = 6 ∧
    valueBackward ([.value, .reluE 0] : Arena ℚ)
        ⟨fun x => x, fun x => x, fun x _ => x⟩ (fun _ => 1) 1
        (fun _ => 0) 0 = 1 := by
  have htopo : topoOf ([.value, .reluE 0] : Arena ℚ) noSkip 1 = [0, 1] := by
    decide
  constructor <;>
    · unfold valueBackward
      rw [htopo]
      norm_num [sweepB, stepB, nodeAt, getData, Function.update, List.getD]

/-- C2 (amended): the backward evaluator sets only the root's gradient to 1
and then applies the per-node rules in reverse topological order; it resets
no other gradient — a stale gradient on a leaf is carried over additively
into the computed derivative.  Only the hot-loop closure resets gradients,
and exactly those of the listed non-parameter nodes: its result never
depends on their pre-call values, while the remaining (parameter) grads
survive into the sweep. -/
theorem backward_sets_root_only :
    (∀ (α : Type) [LinearOrderedField α] (a : Arena α) (P : Prims α)
       (d : Nat → α) (r : Nat) (g : Nat → α), valueBackward a P d r g
         = sweepB a P d (topoOf a noSkip r).reverse (Function.update g r 1)) ∧
    (∀ (α : Type) [LinearOrderedField α] (a : Arena α) (P : Prims α)
       (d : Nat → α) (r : Nat) (g : Nat → α) (p : Nat), WF a →
       (nodeAt a p).ops = [] → p ≠ r →
       valueBackward a P d r g p
         = g p + valueBackward a P d r (Function.update g p 0) p) ∧
    (∀ (α : Type) [LinearOrderedField α] (a : Arena α) (P : Prims α)
       (d : Nat → α) (nps : List Nat) (r : Nat) (g g' : Nat → α),
       (∀ n, ¬ n ∈ nps → g n = g' n) →
       hotBackward a P d nps r g = hotBackward a P d nps r g') := by
  refine ⟨fun α _ a P d r g => rfl, ?_, ?_⟩
  · intro α _ a P d r g p hwf hleaf hpr
    have hag : ∀ t ∈ (topoOf a noSkip r).reverse, (nodeAt a t).ops ≠ [] →
        Function.update g r 1 t
          = Function.update (Function.update g p 0) r 1 t := by
      intro t _ hops
      have htp : t ≠ p := by
        intro hh
        rw [hh] at hops
        exact hops hleaf
      simp [Function.update_apply, htp]
    have hd := sweepB_delta a P d hwf (topoOf a noSkip r).reverse _ _ hag p
    have e1 : Function.update g r 1 p = g p := by
      simp [Function.update_apply, hpr]
    have e2 : Function.update (Function.update g p 0) r 1 p = 0 := by
      simp [Function.update_apply, hpr]
    unfold valueBackward
    rw [e1, e2] at hd
    linarith
  · intro α _ a P d nps r g g' hag
    have hzero : zeroNonParams nps g = zeroNonParams nps g' := by
      funext n
      unfold zeroNonParams
      by_cases hn : n ∈ nps
      · simp [hn]
      · simp [hn, hag n hn]
    unfold hotBackward
    rw [hzero]

/-- The stale-grad additivity of the amended C2 theorem on the concrete
`relu(x)` graph: the stale grad 5 on the leaf adds to the derivative. -/
theorem backward_sets_root_only_witness :
    valueBackward ([.value, .reluE 0] : Arena ℚ)
        ⟨fun x => x, fun x => x, fun x _ => x⟩ (fun _ => 1) 1
        (fun n => if n = 0 then 5 else 0) 0
      = (fun n : Nat => if n = 0 then (5 : ℚ) else 0) 0
        + valueBackward ([.value, .reluE 0] : Arena ℚ)
            ⟨fun x => x, fun x => x, fun x _ => x⟩ (fun _ => 1) 1
            (Function.update (fun n => if n = 0 then (5 : ℚ) else 0) 0 0) 0 :=
  backward_sets_root_only.2.1 ℚ ([.value, .reluE 0] : Arena ℚ)
    ⟨fun x => x, fun x => x, fun x _ => x⟩ (fun _ => 1) 1
    (fun n => if n = 0 then 5 else 0) 0 (by decide) (by decide) (by decide)

/-- The gradient a single example contributes to each node: the hot-loop
backward closure run from an all-zero grad state over the example's
post-forward data. -/
def gradPerExample {α : Type} [LinearOrderedField α] (a : Arena α)
    (P : Prims α) (nps : List Nat) (r : Nat) (d : Nat → α) : Nat → α :=
  hotBackward a P d nps r (fun _ => 0)

/-- Parameters are excluded from `non_params`. -/
theorem not_mem_nonParams {α : Type} (a : Arena α) (r : Nat)
    (params : List Nat) (p : Nat) (hp : p ∈ params) :
    ¬ p ∈ nonParamsOf a r params := by
  unfold nonParamsOf
  intro h
  rcases List.mem_filter.mp h with ⟨_, hdec⟩
  simp at hdec
  exact hdec hp

/-- Every cached-order node that is not a parameter is in `non_params`. -/
theorem mem_nonParams_of_not_params {α : Type} (a : Arena α) (r : Nat)
    (params : List Nat) (t : Nat) (ht : t ∈ topoOf a constSkip r)
    (htp : ¬ t ∈ params) : t ∈ nonParamsOf a r params := by
  unfold nonParamsOf
  exact List.mem_filter.mpr ⟨ht, by simpa using htp⟩

/-- The hot-loop backward closure adds exactly the example's own gradient to
each parameter's grad: parameter grads are never reset and never read, so
the pass is additive in them. -/
theorem hotBackward_param_add {α : Type} [LinearOrderedField α] (a : Arena α)
    (P : Prims α) (d : Nat → α) (params : List Nat) (r : Nat) (hwf : WF a)
    (hp : ∀ q ∈ params, (nodeAt a q).ops = []) (hr : (nodeAt a r).ops ≠ [])
    (g : Nat → α) (p : Nat) (hpp : p ∈ params) :
    hotBackward a P d (nonParamsOf a r params) r g p
      = g p + gradPerExample a P (nonParamsOf a r params) r d p := by
  have hpr : p ≠ r := fun hh => hr (hh ▸ hp p hpp)
  have hag : ∀ t ∈ (topoOf a constSkip r).reverse, (nodeAt a t).ops ≠ [] →
      Function.update (zeroNonParams (nonParamsOf a r params) g) r 1 t
        = Function.update
            (zeroNonParams (nonParamsOf a r params) (fun _ => 0)) r 1 t := by
    intro t htL hops
    by_cases htr : t = r
    · subst htr
      simp [Function.update_apply]
    · have ht : t ∈ topoOf a constSkip r := List.mem_reverse.mp htL
      have htp : ¬ t ∈ params := fun hc => hops (hp t hc)
      have htn : t ∈ nonParamsOf a r params :=
        mem_nonParams_of_not_params a r params t ht htp
      simp [Function.update_apply, htr, zeroNonParams, htn]
  have hd := sweepB_delta a P d hwf (topoOf a constSkip r).reverse _ _ hag p
  have hnp : ¬ p ∈ nonParamsOf a r params :=
    not_mem_nonParams a r params p hpp
  have e1 : Function.update (zeroNonParams (nonParamsOf a r params) g) r 1 p
      = g p := by
    simp [Function.update_apply, hpr, zeroNonParams, hnp]
  have e2 : Function.update
      (zeroNonParams (nonParamsOf a r params) (fun _ => (0 : α))) r 1 p = 0 := by
    simp [Function.update_apply, hpr, zeroNonParams, hnp]
  unfold hotBackward at hd ⊢
  unfold gradPerExample hotBackward
  rw [e1, e2] at hd
  linarith

/-- Consuming one batch entry is one fold step. -/
theorem runBatch_cons {α : Type} [LinearOrderedField α] (a : Arena α)
    (P : Prims α) (nps : List Nat) (r : Nat)
    (oe : Option (Nat → Option α)) (t : List (Option (Nat → Option α)))
    (s : (Nat → α) × (Nat → α) × α) :
    runBatch a P nps r (oe :: t) s
      = runBatch a P nps r t (batchStep a P nps r s oe) := rfl

/-- Over a whole padded batch, each parameter's grad grows by the sum of
the per-example gradients of the non-sentinel entries, in processing
order. -/
theorem runBatch_param_sum {α : Type} [LinearOrderedField α] (a : Arena α)
    (P : Prims α) (params : List Nat) (r : Nat) (hwf : WF a)
    (hp : ∀ q ∈ params, (nodeAt a q).ops = []) (hr : (nodeAt a r).ops ≠ []) :
    ∀ (exs : List (Option (Nat → Option α))) (d0 g0 : Nat → α) (l0 : α)
      (p : Nat), p ∈ params →
      (runBatch a P (nonParamsOf a r params) r exs (d0, g0, l0)).2.1 p
        = g0 p + ((dataStates a P r exs d0).map
            (fun dd => gradPerExample a P (nonParamsOf a r params) r dd p)).sum := by
  intro exs
  induction exs with
  | nil =>
    intro d0 g0 l0 p _
    simp [runBatch, dataStates]
  | cons oe t ih =>
    intro d0 g0 l0 p hpp
    cases oe with
    | none =>
      rw [runBatch_cons, batchStep_none]
      rw [ih d0 g0 l0 p hpp]
      simp [dataStates]
    | some e =>
      rw [runBatch_cons]
      show (runBatch a P (nonParamsOf a r params) r t
          (forwardHot a P r (writeEx e d0),
            hotBackward a P (forwardHot a P r (writeEx e d0))
              (nonParamsOf a r params) r g0,
            l0 + forwardHot a P r (writeEx e d0) r)).2.1 p = _
      rw [ih (forwardHot a P r (writeEx e d0))
        (hotBackward a P (forwardHot a P r (writeEx e d0))
          (nonParamsOf a r params) r g0)
        (l0 + forwardHot a P r (writeEx e d0) r) p hpp]
      rw [hotBackward_param_add a P (forwardHot a P r (writeEx e d0))
        params r hwf hp hr g0 p hpp]
      simp [dataStates]
      ring

/-- C10: the per-example hot-loop backward closure resets the gradients of
non-parameter nodes only and accumulates into parameter gradients
additively — running it adds exactly the example's own gradient (its result
from an all-zero grad state) to each parameter's grad.  Hence, between the
zero_grad at batch start and the update_params at batch end, each
parameter's grad is the sum of its per-example gradients over the
non-sentinel examples of the batch, and the SGD step consumes this summed
gradient: data' = data − 0.1 · Σ. -/
theorem hot_loop_accumulates_param_grads :
    ∀ (α : Type) [LinearOrderedField α] (a : Arena α) (P : Prims α)
      (params : List Nat) (r : Nat), WF a →
      (∀ q ∈ params, (nodeAt a q).ops = []) → (nodeAt a r).ops ≠ [] →
      (∀ (d g : Nat → α) (p : Nat), p ∈ params →
        hotBackward a P d (nonParamsOf a r params) r g p
          = g p + gradPerExample a P (nonParamsOf a r params) r d p) ∧
      (∀ (exs : List (Option (Nat → Option α))) (d0 g0 : Nat → α) (l0 : α)
        (p : Nat), p ∈ params →
        (runBatch a P (nonParamsOf a r params) r exs (d0, g0, l0)).2.1 p
          = g0 p + ((dataStates a P r exs d0).map
              (fun dd => gradPerExample a P (nonParamsOf a r params) r dd p)).sum) ∧
      (∀ (exs : List (Option (Nat → Option α))) (d0 gprev : Nat → α) (l0 : α)
        (p : Nat), p ∈ params → p ∈ topoOf a constSkip r →
        updateParams params
            (runBatch a P (nonParamsOf a r params) r exs
              (d0, zeroGradHot a r gprev, l0)).1
            (runBatch a P (nonParamsOf a r params) r exs
              (d0, zeroGradHot a r gprev, l0)).2.1 p
          = (runBatch a P (nonParamsOf a r params) r exs
              (d0, zeroGradHot a r gprev, l0)).1 p
            - 1 / 10 * ((dataStates a P r exs d0).map
                (fun dd => gradPerExample a P (nonParamsOf a r params) r dd p)).sum) := by
  intro α _ a P params r hwf hp hr
  refine ⟨?_, ?_, ?_⟩
  · intro d g p hpp
    exact hotBackward_param_add a P d params r hwf hp hr g p hpp
  · intro exs d0 g0 l0 p hpp
    exact runBatch_param_sum a P params r hwf hp hr exs d0 g0 l0 p hpp
  · intro exs d0 gprev l0 p hpp hpt
    have hz : zeroGradHot a r gprev p = 0 := by
      unfold zeroGradHot
      simp [hpt]
    have hsum := runBatch_param_sum a P params r hwf hp hr exs d0
      (zeroGradHot a r gprev) l0 p hpp
    rw [hz, zero_add] at hsum
    unfold updateParams
    rw [if_pos hpp, hsum]

/-- The SGD-consumption fact of the C10 theorem on a concrete one-weight
product graph over a three-entry batch (two real examples and one
sentinel). -/
theorem hot_loop_accumulates_param_grads_witness :
    updateParams [0]
        (runBatch ([.value, .value, .mulE 0 1] : Arena ℚ)
          ⟨fun x => x, fun x => x, fun x _ => x⟩
          (nonParamsOf ([.value, .value, .mulE 0 1] : Arena ℚ) 2 [0]) 2
          [some (fun n => if n = 1 then some 5 else none), none,
            some (fun n => if n = 1 then some 7 else none)]
          ((fun _ => 1), zeroGradHot ([.value, .value, .mulE 0 1] : Arena ℚ) 2
            (fun _ => 3), 0)).1
        (runBatch ([.value, .value, .mulE 0 1] : Arena ℚ)
          ⟨fun x => x, fun x => x, fun x _ => x⟩
          (nonParamsOf ([.value, .value, .mulE 0 1] : Arena ℚ) 2 [0]) 2
          [some (fun n => if n = 1 then some 5 else none), none,
            some (fun n => if n = 1 then some 7 else none)]
          ((fun _ => 1), zeroGradHot ([.value, .value, .mulE 0 1] : Arena ℚ) 2
            (fun _ => 3), 0)).2.1 0
      = (runBatch ([.value, .value, .mulE 0 1] : Arena ℚ)
          ⟨fun x => x, fun x => x, fun x _ => x⟩
          (nonParamsOf ([.value, .value, .mulE 0 1] : Arena ℚ) 2 [0]) 2
          [some (fun n => if n = 1 then some 5 else none), none,
            some (fun n => if n = 1 then some 7 else none)]
          ((fun _ => 1), zeroGradHot ([.value, .value, .mulE 0 1] : Arena ℚ) 2
            (fun _ => 3), 0)).1 0
        - 1 / 10 * ((dataStates ([.value, .value, .mulE 0 1] : Arena ℚ)
              ⟨fun x => x, fun x => x, fun x _ => x⟩ 2
              [some (fun n => if n = 1 then some 5 else none), none,
                some (fun n => if n = 1 then some 7 else none)]
              (fun _ => 1)).map
            (fun dd => gradPerExample ([.value, .value, .mulE 0 1] : Arena ℚ)
              ⟨fun x => x, fun x => x, fun x _ => x⟩
              (nonParamsOf ([.value, .value, .mulE 0 1] : Arena ℚ) 2 [0]) 2
              dd 0)).sum :=
  (hot_loop_accumulates_param_grads ℚ ([.value, .value, .mulE 0 1] : Arena ℚ)
    ⟨fun x => x, fun x => x, fun x _ => x⟩ [0] 2 (by decide) (by decide)
    (by decide)).2.2
    [some (fun n => if n = 1 then some 5 else none), none,
      some (fun n => if n = 1 then some 7 else none)]
    (fun _ => 1) (fun _ => 3) 0 0 (by decide) (by decide)

/-- The weight loop of `Neuron.__init__` consumes one draw per weight, in
loop order, advancing the stream position once per draw. -/
theorem drawLoop_spec {α : Type} (rng : Nat → α) :
    ∀ (nin : Nat) (acc : List α) (k0 : Nat),
      (List.range nin).foldl
          (fun (s : List α × Nat) _ =>
            let (x, k') := drawOne rng s.2
            (s.1 ++ [x], k')) (acc, k0)
        = (acc ++ (List.range nin).map (fun i => rng (k0 + i)), k0 + nin) := by
  intro nin
  induction nin with
  | zero =>
    intro acc k0
    simp
  | succ n ih =>
    intro acc k0
    rw [List.range_succ, List.foldl_append, ih acc k0]
    simp [drawOne, List.range_succ]
    omega

/-- C6 counterexample: the bias leaf of a `Neuron` is `Value()`, whose data
field is its initial 0.0 — it is not initialized with a draw from the
random source.  Against a stream whose every draw is 1/2, the bias datum is
0, which no draw ever produces. -/
theorem neuron_bias_not_drawn_counterexample :
    (neuronInit (fun _ => (1 : ℚ) / 2) 0 3).1.2 = 0 ∧ (0 : ℚ) ≠ 1 / 2 := by
  constructor
  · rfl
  · norm_num

/-- C6 (amended): `Neuron(nin, nonlin)` creates `nin` weight leaves whose
data fields receive `nin` successive draws from the seeded, explicitly
instantiated pseudo-random stream, in loop order, advancing the stream by
`nin`; the single bias leaf is `Value()` with data 0.0 and consumes no
draw. -/
theorem neuron_weights_drawn_bias_zero :
    ∀ (α : Type) [LinearOrderedField α] (rng : Nat → α) (k0 nin : Nat),
      (neuronInit rng k0 nin).1.1
          = (List.range nin).map (fun i => rng (k0 + i)) ∧
      (neuronInit rng k0 nin).1.1.length = nin ∧
      (neuronInit rng k0 nin).1.2 = 0 ∧
      (neuronInit rng k0 nin).2 = k0 + nin := by
  intro α _ rng k0 nin
  unfold neuronInit
  rw [drawLoop_spec rng nin [] k0]
  simp

/-- Expression trees over the scalar primitives: the graphs that
`stable_softmax` and `loss_of` of `mnist.py` build, one constructor per
node class.  Sharing in the built DAG does not affect forward values, so a
tree carries the full value semantics of the constructed subgraph. -/
inductive Expr (α : Type) where
  | leaf : α → Expr α
  | constE : α → Expr α
  | add : Expr α → Expr α → Expr α
  | mul : Expr α → Expr α → Expr α
  | powE : Expr α → α → Expr α
  | relu : Expr α → Expr α
  | logE : Expr α → Expr α
  | expE : Expr α → Expr α
  | maxE : Expr α → Expr α → Expr α

instance {α : Type} [LinearOrderedField α] : Inhabited (Expr α) :=
  ⟨Expr.constE 0⟩

/-- The forward value of an expression: each constructor evaluates by the
`_forward` rule of its node class. -/
def eval {α : Type} [LinearOrderedField α] (P : Prims α) : Expr α → α
  | .leaf x => x
  | .constE c => c
  | .add a b => eval P a + eval P b
  | .mul a b => eval P a * eval P b
  | .powE a k => P.fpow (eval P a) k
  | .relu a => (if eval P a > 0 then (1 : α) else 0) * eval P a
  | .logE a => P.flog (eval P a)
  | .expE a => P.fexp (eval P a)
  | .maxE a b =>
    (if eval P a > eval P b then (1 : α) else 0) * eval P a
      + (1 - if eval P a > eval P b then (1 : α) else 0) * eval P b

/-- `BaseValue.sub`: `self.add(other.mul(Const(-1)))`. -/
def Expr.sub {α : Type} [LinearOrderedField α] (a b : Expr α) : Expr α :=
  Expr.add a (Expr.mul b (Expr.constE (-1)))

/-- `BaseValue.div`: `self.mul(other.pow(-1))`. -/
def Expr.div {α : Type} [LinearOrderedField α] (a b : Expr α) : Expr α :=
  Expr.mul a (Expr.powE b (-1))

/-- `stable_softmax` of `mnist.py`: left-to-right `Max` fold for the
maximum (accumulator as left operand), `sub` shift, `exp`, left-to-right
`add` fold over `exps[1:]` starting at `exps[0]` for the sum, and `div` of
each exponential by the sum. -/
def stable_softmax {α : Type} [LinearOrderedField α]
    (output : List (Expr α)) : List (Expr α) :=
  match output with
  | [] => []
  | o0 :: rest =>
    let m := rest.foldl (fun acc o => Expr.maxE acc o) o0
    let shiftx := (o0 :: rest).map (fun o => Expr.sub o m)
    let exps := shiftx.map (fun o => Expr.expE o)
    let s := exps.tail.foldl (fun acc o => Expr.add acc o) exps.headI
    exps.map (fun o => Expr.div o s)

/-- `loss_of` of `mnist.py` after the model evaluation produced `output`:
`result = Const(0.0)`, then for each class index the term
`act.add(Const(0.0001)).log().mul(exp)` is added, and the fold result is
multiplied by `Const(-1)`.  The Python loop runs over the indices of
`expected_onehot`, which under the equal-length assumption of the spec is
the pairwise walk written here as a zip. -/
def loss_of {α : Type} [LinearOrderedField α]
    (output expected_onehot : List (Expr α)) : Expr α :=
  let softmax_output := stable_softmax output
  let result := (expected_onehot.zip softmax_output).foldl
    (fun result p =>
      Expr.add result
        (Expr.mul (Expr.logE (Expr.add p.2 (Expr.constE (1 / 10000)))) p.1))
    (Expr.constE 0)
  Expr.mul result (Expr.constE (-1))

/-- The claim's maximum: the left-to-right fold of the binary `max` over
the outputs. -/
def maxFoldSpec : List ℝ → ℝ
  | [] => 0
  | x :: xs => xs.foldl max x

/-- The claim's softmax values: `softmaxᵢ = exp(oᵢ − m) / Σⱼ exp(oⱼ − m)`
with `m` the fold-left maximum. -/
noncomputable def softmaxSpec (os : List ℝ) : List ℝ :=
  let m := maxFoldSpec os
  let s := (os.map (fun o => Real.exp (o - m))).sum
  os.map (fun o => Real.exp (o - m) / s)

/-- The claim's loss: `−Σᵢ tᵢ·log(softmaxᵢ + 1e-4)`. -/
noncomputable def lossSpec (os ts : List ℝ) : ℝ :=
  -(((ts.zip (softmaxSpec os)).map
      (fun p => p.1 * Real.log (p.2 + 1 / 10000))).sum)

/-- The external primitives instantiated with the real transcendental
functions that `math.exp`, `math.log` and `math.pow` compute. -/
noncomputable def realPrims : Prims ℝ :=
  ⟨Real.exp, Real.log, fun x y : ℝ => x ^ y⟩

/-- `sub` evaluates to subtraction: `a + b·(−1)`. -/
theorem eval_sub {α : Type} [LinearOrderedField α] (P : Prims α)
    (a b : Expr α) : eval P (Expr.sub a b) = eval P a - eval P b := by
  simp only [Expr.sub, eval]
  ring

/-- The branch-free `Max` forward rule evaluates to the binary maximum. -/
theorem eval_maxE_eq_max {α : Type} [LinearOrderedField α] (P : Prims α)
    (a b : Expr α) : eval P (Expr.maxE a b) = max (eval P a) (eval P b) := by
  simp only [eval]
  rcases lt_trichotomy (eval P b) (eval P a) with h | h | h
  · rw [if_pos h, max_eq_left (le_of_lt h)]
    ring
  · rw [h, if_neg (lt_irrefl _), max_self]
    ring
  · rw [if_neg (asymm h), max_eq_right (le_of_lt h)]
    ring

/-- Evaluating a left fold of `Max` nodes is the left fold of `max`. -/
theorem eval_maxFold {α : Type} [LinearOrderedField α] (P : Prims α) :
    ∀ (es : List (Expr α)) (acc : Expr α),
      eval P (es.foldl (fun acc o => Expr.maxE acc o) acc)
        = es.foldl (fun m o => max m (eval P o)) (eval P acc) := by
  intro es
  induction es with
  | nil => intro acc; rfl
  | cons e es ih =>
    intro acc
    rw [List.foldl_cons, List.foldl_cons, ih, eval_maxE_eq_max]

/-- Evaluating a left fold of `add` nodes is the starting value plus the
sum of the elements' values. -/
theorem eval_addFold {α : Type} [LinearOrderedField α] (P : Prims α) :
    ∀ (es : List (Expr α)) (acc : Expr α),
      eval P (es.foldl (fun acc o => Expr.add acc o) acc)
        = eval P acc + (es.map (eval P)).sum := by
  intro es
  induction es with
  | nil => intro acc; simp
  | cons e es ih =>
    intro acc
    rw [List.foldl_cons, ih]
    simp only [eval, List.map_cons, List.sum_cons]
    ring

/-- Over the real primitives, `div` evaluates to real division:
`math.pow(s, -1)` is `s⁻¹`. -/
theorem eval_div_real (a b : Expr ℝ) :
    eval realPrims (Expr.div a b) = eval realPrims a / eval realPrims b := by
  simp only [Expr.div, eval, realPrims]
  rw [Real.rpow_neg_one]
  ring



/-- The graph `stable_softmax` builds over leaf outputs evaluates exactly
to the claim's softmax formula. -/
theorem stable_softmax_eval (os : List ℝ) :
    (stable_softmax (os.map Expr.leaf)).map (eval realPrims)
      = softmaxSpec os := by
  cases os with
  | nil => rfl
  | cons o0 rest =>
    have hM : eval realPrims
        ((rest.map Expr.leaf).foldl (fun acc o => Expr.maxE acc o)
          (Expr.leaf o0)) = maxFoldSpec (o0 :: rest) := by
      rw [eval_maxFold, List.foldl_map]
      rfl
    have hterm : ∀ x : ℝ,
        eval realPrims (Expr.expE (Expr.sub (Expr.leaf x)
            ((rest.map Expr.leaf).foldl (fun acc o => Expr.maxE acc o)
              (Expr.leaf o0))))
          = Real.exp (x - maxFoldSpec (o0 :: rest)) := by
      intro x
      simp only [eval, Expr.sub]
      rw [hM]
      simp only [realPrims]
      congr 1
      ring
    have hS : eval realPrims
        ((((rest.map Expr.leaf).map (fun o => Expr.sub o
            ((rest.map Expr.leaf).foldl (fun acc o => Expr.maxE acc o)
              (Expr.leaf o0)))).map (fun o => Expr.expE o)).foldl
          (fun acc o => Expr.add acc o)
          (Expr.expE (Expr.sub (Expr.leaf o0)
            ((rest.map Expr.leaf).foldl (fun acc o => Expr.maxE acc o)
              (Expr.leaf o0)))))
        = Real.exp (o0 - maxFoldSpec (o0 :: rest))
          + (rest.map
              (fun o => Real.exp (o - maxFoldSpec (o0 :: rest)))).sum := by
      rw [eval_addFold, hterm o0]
      congr 1
      refine congrArg List.sum ?_
      simp only [List.map_map]
      refine List.map_congr_left (fun x _ => ?_)
      simp only [Function.comp_apply]
      exact hterm x
    simp only [List.map_cons, stable_softmax, softmaxSpec, List.tail_cons,
      List.headI_cons, List.sum_cons]
    congr 1
    · rw [eval_div_real, hterm o0, hS]
    · have hS2 := hS
      simp only [List.map_map] at hS2
      simp only [List.map_map]
      refine List.map_congr_left (fun x _ => ?_)
      simp only [Function.comp_apply]
      rw [eval_div_real, hterm x, hS2]

/-- The softmax denominator is positive for a non-empty output list. -/
theorem softmax_denom_pos (os : List ℝ) (h : os ≠ []) :
    0 < (os.map (fun o => Real.exp (o - maxFoldSpec os))).sum := by
  refine List.sum_pos _ (fun x hx => ?_) (by simpa using h)
  rcases List.mem_map.mp hx with ⟨o, _, rfl⟩
  exact Real.exp_pos _

/-- The claim's softmax values sum to 1 on any non-empty input. -/
theorem softmaxSpec_sum (os : List ℝ) (h : os ≠ []) :
    (softmaxSpec os).sum = 1 := by
  have hpos := softmax_denom_pos os h
  simp only [softmaxSpec, div_eq_mul_inv]
  rw [List.sum_map_mul_right]
  exact mul_inv_cancel₀ (ne_of_gt hpos)

/-- A fold of the shifted maximum is the shifted fold of the maximum. -/
theorem foldl_max_shift (c : ℝ) :
    ∀ (xs : List ℝ) (acc : ℝ),
      xs.foldl (fun m x => max m (x + c)) (acc + c) = xs.foldl max acc + c := by
  intro xs
  induction xs with
  | nil => intro acc; rfl
  | cons x xs ih =>
    intro acc
    rw [List.foldl_cons, List.foldl_cons, max_add_add_right, ih]

/-- The fold-left maximum commutes with adding a constant to every input. -/
theorem maxFoldSpec_shift (os : List ℝ) (c : ℝ) (h : os ≠ []) :
    maxFoldSpec (os.map (fun o => o + c)) = maxFoldSpec os + c := by
  cases os with
  | nil => exact absurd rfl h
  | cons o0 rest =>
    simp only [List.map_cons, maxFoldSpec]
    rw [List.foldl_map]
    exact foldl_max_shift c rest o0

/-- The claim's softmax values are invariant under adding one constant to
every input. -/
theorem softmaxSpec_shift (os : List ℝ) (c : ℝ) (h : os ≠ []) :
    softmaxSpec (os.map (fun o => o + c)) = softmaxSpec os := by
  have hden : (os.map (fun o => o + c)).map
      (fun o => Real.exp (o - (maxFoldSpec os + c)))
      = os.map (fun o => Real.exp (o - maxFoldSpec os)) := by
    simp only [List.map_map]
    refine List.map_congr_left (fun x _ => ?_)
    simp only [Function.comp_apply]
    congr 1
    ring
  simp only [softmaxSpec]
  rw [maxFoldSpec_shift os c h]
  simp only [hden]
  simp only [List.map_map]
  refine List.map_congr_left (fun x _ => ?_)
  simp only [Function.comp_apply]
  congr 2
  ring

/-- C7: on every non-empty list of finite inputs, the values produced by
`stable_softmax` sum to 1 (exactly, over the reals), and the produced list
is invariant under adding one constant to every input. -/
theorem softmax_sums_to_one_and_shift_invariant (os : List ℝ) (c : ℝ)
    (h : os ≠ []) :
    ((stable_softmax (os.map Expr.leaf)).map (eval realPrims)).sum = 1 ∧
    (stable_softmax ((os.map (fun o => o + c)).map Expr.leaf)).map
        (eval realPrims)
      = (stable_softmax (os.map Expr.leaf)).map (eval realPrims) := by
  constructor
  · rw [stable_softmax_eval]
    exact softmaxSpec_sum os h
  · rw [stable_softmax_eval, stable_softmax_eval]
    exact softmaxSpec_shift os c h

/-- The C7 facts at the concrete one-element output list and shift 1. -/
theorem softmax_sums_to_one_and_shift_invariant_witness :
    ((stable_softmax (([0] : List ℝ).map Expr.leaf)).map
        (eval realPrims)).sum = 1 ∧
    (stable_softmax ((([0] : List ℝ).map (fun o => o + 1)).map
          Expr.leaf)).map (eval realPrims)
      = (stable_softmax (([0] : List ℝ).map Expr.leaf)).map
          (eval realPrims) :=
  softmax_sums_to_one_and_shift_invariant [0] 1 (by simp)

/-- Evaluating the cross-entropy fold of `loss_of`: starting value plus the
sum of `log(actᵢ + 1e-4)·tᵢ` over the walked pairs. -/
theorem eval_ceFold :
    ∀ (ps : List (Expr ℝ × Expr ℝ)) (acc : Expr ℝ),
      eval realPrims (ps.foldl (fun r p =>
          Expr.add r (Expr.mul (Expr.logE (Expr.add p.2
            (Expr.constE (1 / 10000)))) p.1)) acc)
        = eval realPrims acc
          + (ps.map (fun p => Real.log (eval realPrims p.2 + 1 / 10000)
              * eval realPrims p.1)).sum := by
  intro ps
  induction ps with
  | nil => intro acc; simp
  | cons p ps ih =>
    intro acc
    rw [List.foldl_cons, ih]
    simp only [eval, realPrims, List.map_cons, List.sum_cons]
    ring

/-- Pairing leaf targets with softmax nodes and evaluating is pairing the
raw targets with the softmax values. -/
theorem zip_map_eval :
    ∀ (ts : List ℝ) (es : List (Expr ℝ)),
      ((ts.map Expr.leaf).zip es).map
          (fun p => Real.log (eval realPrims p.2 + 1 / 10000)
            * eval realPrims p.1)
        = (ts.zip (es.map (eval realPrims))).map
            (fun p => Real.log (p.2 + 1 / 10000) * p.1) := by
  intro ts
  induction ts with
  | nil => intro es; rfl
  | cons t ts ih =>
    intro es
    cases es with
    | nil => rfl
    | cons e es =>
      simp only [List.map_cons, List.zip_cons_cons]
      rw [ih es]
      rfl

/-- C4: for model outputs `o₁..oₖ` (k ≥ 1) and a target of the same length,
the loss graph built by `loss_of` evaluates to
`−Σᵢ tᵢ·log(softmaxᵢ + 1e-4)`, with `softmaxᵢ = exp(oᵢ−m)/Σⱼ exp(oⱼ−m)`
and `m` the left-to-right max fold of the outputs. -/
theorem loss_of_formula (os ts : List ℝ) (h : os ≠ [])
    (hl : ts.length = os.length) :
    eval realPrims (loss_of (os.map Expr.leaf) (ts.map Expr.leaf))
      = lossSpec os ts := by
  simp only [loss_of, eval]
  rw [eval_ceFold, zip_map_eval, stable_softmax_eval]
  have hcomm : (ts.zip (softmaxSpec os)).map
      (fun p => Real.log (p.2 + 1 / 10000) * p.1)
      = (ts.zip (softmaxSpec os)).map
          (fun p => p.1 * Real.log (p.2 + 1 / 10000)) :=
    List.map_congr_left (fun p _ => mul_comm _ _)
  rw [hcomm]
  simp only [lossSpec, eval]
  ring

/-- The C4 loss formula at the concrete single-class input `o = [0]`,
`t = [1]`. -/
theorem loss_of_formula_witness :
    eval realPrims (loss_of (([0] : List ℝ).map Expr.leaf)
        (([1] : List ℝ).map Expr.leaf))
      = lossSpec [0] [1] :=
  loss_of_formula [0] [1] (by simp) rfl

/-- Reachability is transitive. -/
theorem Reach.trans' {α : Type} {a : Arena α} {i j k : Nat}
    (h1 : Reach a i j) (h2 : Reach a j k) : Reach a i k := by
  induction h2 with
  | refl => exact h1
  | step h hop ih => exact Reach.step ih hop

/-- A node reachable from `i` is `i` itself or reachable from one of `i`'s
operands. -/
theorem reach_src {α : Type} {a : Arena α} {i k : Nat} (h : Reach a i k) :
    k = i ∨ ∃ j ∈ (nodeAt a i).ops, Reach a j k := by
  induction h with
  | refl => exact Or.inl rfl
  | @step v j h hop ih =>
    rcases ih with rfl | ⟨u, hu, hru⟩
    · exact Or.inr ⟨j, hop, Reach.refl⟩
    · exact Or.inr ⟨u, hu, Reach.step hru hop⟩

/-- Nothing but `i` itself is reachable from an operand-free node. -/
theorem reach_of_no_ops {α : Type} {a : Arena α} {i k : Nat}
    (hops : (nodeAt a i).ops = []) (h : Reach a i k) : k = i := by
  rcases reach_src h with rfl | ⟨j, hj, _⟩
  · rfl
  · rw [hops] at hj
    cases hj

/-- Reachability under `WF` only goes downwards in index. -/
theorem reach_le {α : Type} {a : Arena α} (hwf : WF a) {i k : Nat}
    (h : Reach a i k) : k ≤ i := by
  induction h with
  | refl => exact le_refl i
  | @step v j h hop ih => exact le_of_lt (lt_of_lt_of_le (hwf.ops_lt v j hop) ih)

/-- The topo list is contained in the visited list. -/
def SubV (st : List Nat × List Nat) : Prop := ∀ k ∈ st.2, k ∈ st.1

/-- Every gray node (visited but not yet appended) has index above `b`. -/
def GrayGt (st : List Nat × List Nat) (b : Nat) : Prop :=
  ∀ v ∈ st.1, v ∉ st.2 → b < v

/-- The dependency-order property of a topo list: every listed node's
non-skipped operands appear strictly before it. -/
def OrdOk {α : Type} (a : Arena α) (sk : NodeK α → Bool) (T : List Nat) : Prop :=
  ∀ l1 k l2, T = l1 ++ k :: l2 → ∀ j ∈ (nodeAt a k).ops,
    sk (nodeAt a j) = false → j ∈ l1

/-- A dependency-ordered list is closed under non-skipped operands. -/
theorem OrdOk.closed {α : Type} {a : Arena α} {sk : NodeK α → Bool}
    {T : List Nat} (h : OrdOk a sk T) :
    ∀ v ∈ T, ∀ j ∈ (nodeAt a v).ops, sk (nodeAt a j) = false → j ∈ T := by
  intro v hv j hj hskj
  obtain ⟨l1, l2, rfl⟩ := List.append_of_mem hv
  exact List.mem_append_left _ (h l1 v l2 rfl j hj hskj)

/-- Everything non-skipped reachable from a member of a dependency-ordered
list is in the list. -/
theorem reach_mem_of_closed {α : Type} {a : Arena α} {sk : NodeK α → Bool}
    {T : List Nat} (hsk : ∀ n : NodeK α, sk n = true → n.ops = [])
    (hcl : OrdOk a sk T) {i : Nat} (hi : i ∈ T) :
    ∀ k, Reach a i k → sk (nodeAt a k) = false → k ∈ T := by
  intro k h
  induction h with
  | refl => intro _; exact hi
  | @step v j h hop ih =>
    intro hskj
    have hskv : sk (nodeAt a v) = false := by
      by_contra hc
      have := hsk (nodeAt a v) (by revert hc; cases sk (nodeAt a v) <;> simp)
      rw [this] at hop
      cases hop
    exact hcl.closed v (ih hskv) j hop hskj

/-- Appending a node whose non-skipped operands are already listed
preserves the dependency order. -/
theorem OrdOk.snoc {α : Type} {a : Arena α} {sk : NodeK α → Bool}
    {T : List Nat} {i : Nat} (h : OrdOk a sk T)
    (hi : ∀ j ∈ (nodeAt a i).ops, sk (nodeAt a j) = false → j ∈ T) :
    OrdOk a sk (T ++ [i]) := by
  intro l1 k l2 heq j hj hskj
  rcases List.eq_nil_or_concat l2 with rfl | ⟨l2', x, rfl⟩
  · have heq' : l1 ++ [k] = T ++ [i] := heq.symm
    have hlen : l1.length = T.length := by
      have := congrArg List.length heq'
      simp only [List.length_append, List.length_singleton] at this
      omega
    obtain ⟨rfl, hk⟩ := List.append_inj heq'.symm hlen.symm
    have hk' : k = i := by
      simpa using hk.symm
    rw [← hk'] at hi
    exact hi j hj hskj
  · rw [List.concat_eq_append] at heq
    have heq' : (l1 ++ k :: l2') ++ [x] = T ++ [i] := by
      rw [heq]
      simp
    obtain ⟨hT, _⟩ := List.append_inj' heq' (by simp)
    exact h l1 k l2' hT.symm j hj hskj


/-- Full specification of the depth-first topological-sort worker, by
induction on fuel: a call appends only reachable non-skipped nodes of index
at most the start node; it extends the visited list, with every new visit
appended to the topo list by return time (the gray set is unchanged); it
preserves no-duplicates and dependency order; it appends every non-skipped
node reachable from a non-skipped start; and an unvisited non-skipped start
is appended last. -/
theorem dfsA_spec {α : Type} (a : Arena α) (sk : NodeK α → Bool)
    (hwf : WF a) (hsk : ∀ n : NodeK α, sk n = true → n.ops = []) :
    ∀ (f : Nat) (i : Nat) (st : List Nat × List Nat), i < f →
      SubV st → GrayGt st i → st.2.Nodup → OrdOk a sk st.2 →
      (∃ Δ, (dfsA a sk f i st).2 = st.2 ++ Δ ∧
        ∀ k ∈ Δ, Reach a i k ∧ sk (nodeAt a k) = false ∧ k ≤ i) ∧
      (∀ v ∈ st.1, v ∈ (dfsA a sk f i st).1) ∧
      (∀ v ∈ (dfsA a sk f i st).1, v ∈ st.1 ∨ v ∈ (dfsA a sk f i st).2) ∧
      (∀ v, (v ∈ (dfsA a sk f i st).1 ∧ v ∉ (dfsA a sk f i st).2)
        ↔ (v ∈ st.1 ∧ v ∉ st.2)) ∧
      SubV (dfsA a sk f i st) ∧
      (dfsA a sk f i st).2.Nodup ∧
      OrdOk a sk (dfsA a sk f i st).2 ∧
      (sk (nodeAt a i) = false →
        ∀ k, Reach a i k → sk (nodeAt a k) = false →
          k ∈ (dfsA a sk f i st).2) ∧
      (sk (nodeAt a i) = false → i ∉ st.1 →
        ∃ Δ, (dfsA a sk f i st).2 = st.2 ++ Δ ++ [i]) := by
  intro f
  induction f with
  | zero =>
    intro i st hif
    exact absurd hif (Nat.not_lt_zero i)
  | succ f ih =>
    intro i st hif hsub hgray hnd hord
    by_cases hski : sk (nodeAt a i) = true
    · have hred : dfsA a sk (f + 1) i st = st := by
        rw [dfsA, if_pos hski]
      rw [hred]
      refine ⟨⟨[], by simp, by simp⟩, fun v hv => hv, fun v hv => Or.inl hv,
        fun v => Iff.rfl, hsub, hnd, hord, ?_, ?_⟩
      · intro hc
        rw [hc] at hski
        exact absurd hski (by simp)
      · intro hc
        rw [hc] at hski
        exact absurd hski (by simp)
    · have hskif : sk (nodeAt a i) = false := by
        revert hski
        cases sk (nodeAt a i) <;> simp
      by_cases hvis : i ∈ st.1
      · have hred : dfsA a sk (f + 1) i st = st := by
          rw [dfsA, if_neg hski, if_pos hvis]
        rw [hred]
        have hiblack : i ∈ st.2 := by
          by_contra hc
          exact absurd (hgray i hvis hc) (lt_irrefl i)
        refine ⟨⟨[], by simp, by simp⟩, fun v hv => hv, fun v hv => Or.inl hv,
          fun v => Iff.rfl, hsub, hnd, hord, ?_, ?_⟩
        · intro _ k hk hskk
          exact reach_mem_of_closed hsk hord hiblack k hk hskk
        · intro _ hnv
          exact absurd hvis hnv
      · have hops_lt : ∀ j ∈ (nodeAt a i).ops, j < i := hwf.ops_lt i
        have hfold : ∀ (js : List Nat), (∀ u ∈ js, u < i) →
            ∀ (s0 : List Nat × List Nat), SubV s0 →
              (∀ v ∈ s0.1, v ∉ s0.2 → ∀ u ∈ js, u < v) →
              s0.2.Nodup → OrdOk a sk s0.2 →
              (∃ Δ, (js.foldl (fun s j => dfsA a sk f j s) s0).2
                  = s0.2 ++ Δ ∧
                ∀ k ∈ Δ, (∃ u ∈ js, Reach a u k ∧ k ≤ u)
                  ∧ sk (nodeAt a k) = false) ∧
              (∀ v ∈ s0.1, v ∈ (js.foldl (fun s j => dfsA a sk f j s) s0).1) ∧
              (∀ v ∈ (js.foldl (fun s j => dfsA a sk f j s) s0).1,
                v ∈ s0.1 ∨ v ∈ (js.foldl (fun s j => dfsA a sk f j s) s0).2) ∧
              (∀ v, (v ∈ (js.foldl (fun s j => dfsA a sk f j s) s0).1
                  ∧ v ∉ (js.foldl (fun s j => dfsA a sk f j s) s0).2)
                ↔ (v ∈ s0.1 ∧ v ∉ s0.2)) ∧
              SubV (js.foldl (fun s j => dfsA a sk f j s) s0) ∧
              (js.foldl (fun s j => dfsA a sk f j s) s0).2.Nodup ∧
              OrdOk a sk (js.foldl (fun s j => dfsA a sk f j s) s0).2 ∧
              (∀ u ∈ js, sk (nodeAt a u) = false →
                ∀ k, Reach a u k → sk (nodeAt a k) = false →
                  k ∈ (js.foldl (fun s j => dfsA a sk f j s) s0).2) := by
          intro js
          induction js with
          | nil =>
            intro _ s0 hsub0 _ hnd0 hord0
            exact ⟨⟨[], by simp, by simp⟩, fun v hv => hv,
              fun v hv => Or.inl hv, fun v => Iff.rfl, hsub0, hnd0, hord0,
              fun u hu => absurd hu (List.not_mem_nil u)⟩
          | cons j js ihf =>
            intro hlt s0 hsub0 hgray0 hnd0 hord0
            have hjlt : j < i := hlt j (List.mem_cons_self _ _)
            have hjf : j < f := by omega
            have hcall := ih j s0 hjf hsub0
              (fun v hv hnv => hgray0 v hv hnv j (List.mem_cons_self _ _))
              hnd0 hord0
            obtain ⟨⟨Δ1, hΔ1, hΔ1p⟩, hmono1, hnew1, hgray1, hsub1, hnd1,
              hord1, hcomp1, _⟩ := hcall
            have hgray0' : ∀ v ∈ (dfsA a sk f j s0).1,
                v ∉ (dfsA a sk f j s0).2 → ∀ u ∈ js, u < v := by
              intro v hv hnv u hu
              have hh := (hgray1 v).mp ⟨hv, hnv⟩
              exact hgray0 v hh.1 hh.2 u (List.mem_cons_of_mem _ hu)
            have hrest := ihf (fun u hu => hlt u (List.mem_cons_of_mem _ hu))
              (dfsA a sk f j s0) hsub1 hgray0' hnd1 hord1
            obtain ⟨⟨Δ2, hΔ2, hΔ2p⟩, hmono2, hnew2, hgray2, hsub2, hnd2,
              hord2, hcomp2⟩ := hrest
            rw [List.foldl_cons]
            refine ⟨⟨Δ1 ++ Δ2, ?_, ?_⟩, ?_, ?_, ?_, hsub2, hnd2, hord2, ?_⟩
            · rw [hΔ2, hΔ1, List.append_assoc]
            · intro k hk
              rcases List.mem_append.mp hk with hk1 | hk2
              · obtain ⟨hr, hs, hle⟩ := hΔ1p k hk1
                exact ⟨⟨j, List.mem_cons_self _ _, hr, hle⟩, hs⟩
              · obtain ⟨⟨u, hu, hr, hle⟩, hs⟩ := hΔ2p k hk2
                exact ⟨⟨u, List.mem_cons_of_mem _ hu, hr, hle⟩, hs⟩
            · intro v hv
              exact hmono2 v (hmono1 v hv)
            · intro v hv
              rcases hnew2 v hv with hv1 | hv2
              · rcases hnew1 v hv1 with hv0 | hvt
                · exact Or.inl hv0
                · refine Or.inr ?_
                  rw [hΔ2]
                  exact List.mem_append_left _ hvt
              · exact Or.inr hv2
            · intro v
              exact (hgray2 v).trans (hgray1 v)
            · intro u hu hsku k hk hskk
              rcases List.mem_cons.mp hu with rfl | hu'
              · have hkin := hcomp1 hsku k hk hskk
                rw [hΔ2]
                exact List.mem_append_left _ hkin
              · exact hcomp2 u hu' hsku k hk hskk
        have hpre2 : ∀ v ∈ (i :: st.1, st.2).1, v ∉ (i :: st.1, st.2).2 →
            ∀ u ∈ (nodeAt a i).ops, u < v := by
          intro v hv hnv u hu
          rcases List.mem_cons.mp hv with rfl | hv'
          · exact hops_lt u hu
          · exact lt_trans (hops_lt u hu) (hgray v hv' hnv)
        have hF := hfold (nodeAt a i).ops hops_lt (i :: st.1, st.2)
          (fun k hk => List.mem_cons_of_mem _ (hsub k hk)) hpre2 hnd hord
        obtain ⟨⟨Δf, hΔf, hΔfp⟩, hmonoF, hnewF, hgrayF, hsubF, hndF, hordF,
          hcompF⟩ := hF
        have hred1 : (dfsA a sk (f + 1) i st).1
            = ((nodeAt a i).ops.foldl (fun s j => dfsA a sk f j s)
                (i :: st.1, st.2)).1 := by
          rw [dfsA, if_neg hski, if_neg hvis]
        have hred2 : (dfsA a sk (f + 1) i st).2
            = ((nodeAt a i).ops.foldl (fun s j => dfsA a sk f j s)
                (i :: st.1, st.2)).2 ++ [i] := by
          rw [dfsA, if_neg hski, if_neg hvis]
        have hinotst2 : i ∉ st.2 := fun hc => hvis (hsub i hc)
        have hinotΔf : i ∉ Δf := by
          intro hc
          obtain ⟨⟨u, hu, _, hle⟩, _⟩ := hΔfp i hc
          exact absurd (lt_of_le_of_lt hle (hops_lt u hu)) (lt_irrefl i)
        have hinotSS : i ∉ ((nodeAt a i).ops.foldl (fun s j => dfsA a sk f j s)
            (i :: st.1, st.2)).2 := by
          rw [hΔf]
          intro hc
          rcases List.mem_append.mp hc with hc1 | hc2
          · exact hinotst2 hc1
          · exact hinotΔf hc2
        rw [hred1, hred2]
        refine ⟨⟨Δf ++ [i], ?_, ?_⟩, ?_, ?_, ?_, ?_, ?_, ?_, ?_, ?_⟩
        · rw [hΔf, List.append_assoc]
        · intro k hk
          rcases List.mem_append.mp hk with hk1 | hk2
          · obtain ⟨⟨u, hu, hr, hle⟩, hs⟩ := hΔfp k hk1
            refine ⟨Reach.trans' (Reach.step Reach.refl hu) hr, hs, ?_⟩
            exact le_of_lt (lt_of_le_of_lt hle (hops_lt u hu))
          · rw [List.mem_singleton] at hk2
            subst hk2
            exact ⟨Reach.refl, hskif, le_refl _⟩
        · intro v hv
          exact hmonoF v (List.mem_cons_of_mem _ hv)
        · intro v hv
          rcases hnewF v hv with hv0 | hvt
          · rcases List.mem_cons.mp hv0 with rfl | hv0'
            · exact Or.inr (List.mem_append_right _ (List.mem_singleton_self _))
            · exact Or.inl hv0'
          · exact Or.inr (List.mem_append_left _ hvt)
        · intro v
          constructor
          · rintro ⟨hv1, hv2⟩
            have hvnoti : v ≠ i := by
              rintro rfl
              exact hv2 (List.mem_append_right _ (List.mem_singleton_self _))
            have hvnot2 : v ∉ ((nodeAt a i).ops.foldl
                (fun s j => dfsA a sk f j s) (i :: st.1, st.2)).2 :=
              fun hc => hv2 (List.mem_append_left _ hc)
            have hh := (hgrayF v).mp ⟨hv1, hvnot2⟩
            rcases List.mem_cons.mp hh.1 with rfl | hv0
            · exact absurd rfl hvnoti
            · exact ⟨hv0, hh.2⟩
          · rintro ⟨hv1, hv2⟩
            have hvnoti : v ≠ i := fun hc => hvis (hc ▸ hv1)
            have hh := (hgrayF v).mpr ⟨List.mem_cons_of_mem _ hv1, hv2⟩
            refine ⟨hh.1, ?_⟩
            intro hc
            rcases List.mem_append.mp hc with hc1 | hc2
            · exact hh.2 hc1
            · rw [List.mem_singleton] at hc2
              exact hvnoti hc2
        · intro k hk
          rw [hred2] at hk
          rw [hred1]
          rcases List.mem_append.mp hk with hk1 | hk2
          · exact hsubF k hk1
          · rw [List.mem_singleton] at hk2
            subst hk2
            exact hmonoF _ (List.mem_cons_self _ _)
        · rw [List.nodup_append]
          refine ⟨hndF, List.nodup_singleton i, ?_⟩
          intro x hx hx2
          rw [List.mem_singleton] at hx2
          subst hx2
          exact hinotSS hx
        · refine OrdOk.snoc hordF ?_
          intro j hj hskj
          exact hcompF j hj hskj j Reach.refl hskj
        · intro _ k hk hskk
          rcases reach_src hk with rfl | ⟨j, hj, hr⟩
          · exact List.mem_append_right _ (List.mem_singleton_self _)
          · by_cases hskj2 : sk (nodeAt a j) = true
            · have hops0 := hsk (nodeAt a j) hskj2
              have hkj := reach_of_no_ops hops0 hr
              subst hkj
              rw [hskk] at hskj2
              exact absurd hskj2 (by simp)
            · have hskj3 : sk (nodeAt a j) = false := by
                revert hskj2
                cases sk (nodeAt a j) <;> simp
              exact List.mem_append_left _ (hcompF j hj hskj3 k hr hskk)
        · intro _ _
          refine ⟨Δf, ?_⟩
          rw [hΔf]

/-- Skipped nodes have no operands, for both variants' skip tests. -/
theorem constSkip_no_ops {α : Type} :
    ∀ n : NodeK α, constSkip n = true → n.ops = [] := by
  intro n hn
  cases n <;> first
    | rfl
    | simp [constSkip, NodeK.isConst] at hn

/-- The cached topological order from any root: it contains exactly the
non-skipped reachable nodes, has no duplicates, lists every node strictly
after its non-skipped operands, and ends with the (non-skipped) root. -/
theorem topoOf_spec {α : Type} (a : Arena α) (sk : NodeK α → Bool)
    (hwf : WF a) (hsk : ∀ n : NodeK α, sk n = true → n.ops = [])
    (r : Nat) :
    (∀ k, k ∈ topoOf a sk r ↔ (Reach a r k ∧ sk (nodeAt a k) = false)) ∧
    (topoOf a sk r).Nodup ∧
    OrdOk a sk (topoOf a sk r) ∧
    (sk (nodeAt a r) = false → (topoOf a sk r).getLast? = some r) := by
  have hspec := dfsA_spec a sk hwf hsk (r + 1) r ([], [])
    (Nat.lt_succ_self r)
    (fun k hk => absurd hk (List.not_mem_nil k))
    (fun v hv => absurd hv (List.not_mem_nil v))
    List.nodup_nil
    (by
      intro l1 k l2 h
      exact absurd h.symm (by simp))
  obtain ⟨⟨Δ, hΔ, hΔp⟩, _, _, _, _, hndT, hordT, hcompT, hlastT⟩ := hspec
  refine ⟨?_, hndT, hordT, ?_⟩
  · intro k
    constructor
    · intro hk
      unfold topoOf at hk
      rw [hΔ] at hk
      simp only [List.nil_append] at hk
      obtain ⟨hr, hs, _⟩ := hΔp k hk
      exact ⟨hr, hs⟩
    · rintro ⟨hr, hs⟩
      by_cases hskr : sk (nodeAt a r) = true
      · have hkr := reach_of_no_ops (hsk _ hskr) hr
        subst hkr
        rw [hs] at hskr
        exact absurd hskr (by simp)
      · have hskr' : sk (nodeAt a r) = false := by
          revert hskr
          cases sk (nodeAt a r) <;> simp
        exact hcompT hskr' k hr hs
  · intro hskr
    obtain ⟨Δ', hΔ'⟩ := hlastT hskr (List.not_mem_nil r)
    unfold topoOf
    rw [hΔ']
    simp only [List.nil_append]
    exact List.getLast?_concat _

/-- C3 counterexample: in the hot-loop variant, the constant node 1
(`Const`) is an operand of the root `mul` node 2 and hence reachable, yet
the returned sequence is `[0, 2]`: it omits the constant, so it is not the
sequence of all nodes reachable from the root. -/
theorem topo_omits_const_counterexample :
    Reach ([.value, .constE (1 : ℚ), .mulE 0 1] : Arena ℚ) 2 1 ∧
    topoOf ([.value, .constE (1 : ℚ), .mulE 0 1] : Arena ℚ) constSkip 2
      = [0, 2] ∧
    (1 : Nat) ∉
      topoOf ([.value, .constE (1 : ℚ), .mulE 0 1] : Arena ℚ) constSkip 2 := by
  refine ⟨Reach.step Reach.refl ?_, ?_, ?_⟩
  · decide
  · decide
  · decide

/-- C3 (amended): for every well-formed DAG rooted at `r`, the eager
variant's sorter returns a duplicate-free sequence of exactly the nodes
reachable from `r`, in which every node appears strictly after all of its
operands, with `r` last; the hot-loop variant returns the same except that
`Const` nodes are omitted: exactly the non-constant reachable nodes, each
strictly after its non-constant operands, with the (non-constant) root
last. -/
theorem topo_order_operands_first_root_last :
    ∀ (α : Type) (a : Arena α) (r : Nat), WF a →
      ((∀ k, k ∈ topoOf a noSkip r ↔ Reach a r k) ∧
       (topoOf a noSkip r).Nodup ∧
       OrdOk a noSkip (topoOf a noSkip r) ∧
       (topoOf a noSkip r).getLast? = some r) ∧
      ((∀ k, k ∈ topoOf a constSkip r
          ↔ Reach a r k ∧ (nodeAt a k).isConst = false) ∧
       (topoOf a constSkip r).Nodup ∧
       OrdOk a constSkip (topoOf a constSkip r) ∧
       ((nodeAt a r).isConst = false →
         (topoOf a constSkip r).getLast? = some r)) := by
  intro α a r hwf
  have he := topoOf_spec a noSkip hwf (fun n hn => by simp [noSkip] at hn) r
  have hc := topoOf_spec a constSkip hwf constSkip_no_ops r
  constructor
  · refine ⟨?_, he.2.1, he.2.2.1, he.2.2.2 rfl⟩
    intro k
    rw [he.1 k]
    simp [noSkip]
  · refine ⟨?_, hc.2.1, hc.2.2.1, ?_⟩
    · intro k
      rw [hc.1 k]
      rfl
    · intro hr
      exact hc.2.2.2 hr

/-- The eager-variant facts of the amended C3 theorem on a concrete
diamond graph. -/
theorem topo_order_operands_first_root_last_witness :
    (topoOf ([.value, .reluE 0, .expE 0, .addE 1 2] : Arena ℚ)
      noSkip 3).getLast? = some 3 :=
  (topo_order_operands_first_root_last ℚ
    ([.value, .reluE 0, .expE 0, .addE 1 2] : Arena ℚ) 3
    (by decide)).1.2.2.2
